import Mathlib

/-! onto2dot: the statement pass and the model construction.

A shallow embedding of `onto2dot.go`.  The program decodes a Turtle file into a
sequence of triples, walks the sequence once while updating three maps and two
cursors (lines 96 to 129), builds the `Ontology` value from the maps (lines 136
to 160) and renders it through a text template.

Go maps are embedded as association lists with pairwise distinct keys.  A Go
`range` over a map visits every entry once in an unspecified order, so the
model construction takes the visiting orders as an explicit argument.
A failed type assertion (`x.(T)`) aborts the program; the statement pass
returns `none` in that case.
-/

namespace Onto2dot

/-! ## Go maps -/

/-- A Go map as an association list; the operations below keep keys distinct. -/
abbrev GoMap (κ : Type) (ν : Type) := List (κ × ν)

namespace GoMap

variable {κ ν : Type} [DecidableEq κ]

/-- The two-valued lookup `v, ok := m[k]`. -/
def get? : GoMap κ ν → κ → Option ν
  | [], _ => none
  | (k', v) :: m, k => if k' = k then some v else get? m k

/-- The assignment `m[k] = v`: overwrite the entry of `k`, or add one. -/
def set : GoMap κ ν → κ → ν → GoMap κ ν
  | [], k, v => [(k, v)]
  | (k', v') :: m, k, v => if k' = k then (k, v) :: m else (k', v') :: set m k v

/-- The key set of the map. -/
def keys (m : GoMap κ ν) : List κ := m.map Prod.fst

/-- The test `_, ok := m[k]`. -/
def contains (m : GoMap κ ν) (k : κ) : Bool := (get? m k).isSome

end GoMap

/-! ## Terms and triples of the `rdf` package -/

/-- An `rdf.IRI`: a wrapped string. -/
structure IRI where
  str : String
  deriving DecidableEq, Repr

/-- An `rdf.Literal`, reduced to what the program reads: `String()` and `Lang()`. -/
structure Literal where
  str : String
  lang : String
  deriving DecidableEq, Repr

/-- An `rdf.Term`: an IRI, a blank node or a literal. -/
inductive Term where
  | iri (i : IRI)
  | blank (id : String)
  | literal (l : Literal)
  deriving DecidableEq, Repr

/-- An `rdf.Triple`. -/
structure Triple where
  Subj : Term
  Pred : Term
  Obj : Term
  deriving DecidableEq, Repr

/-- `rdf.TermsEqual`: same kind of term and same serialisation. -/
def TermsEqual (a b : Term) : Bool := decide (a = b)

/-- The type assertion `t.(rdf.IRI)`; `none` stands for the run-time failure. -/
def Term.asIRI : Term → Option IRI
  | .iri i => some i
  | _ => none

/-- The type assertion `t.(rdf.Literal)`; `none` stands for the run-time failure. -/
def Term.asLiteral : Term → Option Literal
  | .literal l => some l
  | _ => none

/-- `mustURI`: all five arguments in the program are non-empty, so it never fails. -/
def mustURI (s : String) : IRI := ⟨s⟩

def rdfsClass : IRI := mustURI "http://www.w3.org/2000/01/rdf-schema#Class"
def rdfsLabel : IRI := mustURI "http://www.w3.org/2000/01/rdf-schema#label"
def rdfsProperty : IRI := mustURI "http://www.w3.org/2000/01/rdf-schema#Property"
def rdfsDomain : IRI := mustURI "http://www.w3.org/2000/01/rdf-schema#domain"
def rdfsRange : IRI := mustURI "http://www.w3.org/2000/01/rdf-schema#range"

/-- The `rdf:type` predicate, which "is-a" statements use.  The program itself
never looks at it. -/
def rdfType : IRI := ⟨"http://www.w3.org/1999/02/22-rdf-syntax-ns#type"⟩

/-! ## The statement pass (lines 88 to 129) -/

/-- The five variables declared at lines 88 to 94. -/
structure State where
  classes : GoMap IRI (GoMap IRI Bool)
  iriLabels : GoMap IRI String
  relations : GoMap IRI (GoMap IRI Bool)
  curSubj : IRI
  curProp : IRI
  deriving DecidableEq, Repr

/-- The values the variables have before the loop: empty maps, zero cursors. -/
def State.init : State := ⟨[], [], [], ⟨""⟩, ⟨""⟩⟩

/-- The read `iriLabels[k]`, which yields the empty string for a missing key. -/
def State.label (st : State) (k : IRI) : String := (st.iriLabels.get? k).getD ""

/-- Lines 97 to 100. -/
def stepClass (st : State) (tr : Triple) : Option State :=
  if TermsEqual tr.Obj (.iri rdfsClass) then
    tr.Subj.asIRI.bind fun s =>
      some { st with classes := st.classes.set s [], curSubj := s }
  else some st

/-- Lines 101 to 105. -/
def stepClassLabel (prefLang : String) (st : State) (tr : Triple) : Option State :=
  if TermsEqual tr.Subj (.iri st.curSubj) && TermsEqual tr.Pred (.iri rdfsLabel) then
    tr.Obj.asLiteral.bind fun l =>
      if l.lang = prefLang then
        some { st with iriLabels := st.iriLabels.set st.curSubj l.str }
      else some st
  else some st

/-- Lines 106 to 108. -/
def stepProperty (st : State) (tr : Triple) : Option State :=
  if TermsEqual tr.Obj (.iri rdfsProperty) then
    tr.Subj.asIRI.bind fun s => some { st with curProp := s }
  else some st

/-- Lines 109 to 113. -/
def stepPropertyLabel (prefLang : String) (st : State) (tr : Triple) : Option State :=
  if TermsEqual tr.Subj (.iri st.curProp) && TermsEqual tr.Pred (.iri rdfsLabel) then
    tr.Obj.asLiteral.bind fun l =>
      if l.lang = prefLang then
        some { st with iriLabels := st.iriLabels.set st.curProp l.str }
      else some st
  else some st

/-- The pattern of lines 115 to 118 and of lines 123 to 126:
`if _, ok := m[k]; !ok { m[k] = make(...) }` followed by `m[k][x] = true`. -/
def addToSet (m : GoMap IRI (GoMap IRI Bool)) (k x : IRI) : GoMap IRI (GoMap IRI Bool) :=
  let m1 := if m.contains k then m else m.set k []
  m1.set k (((m1.get? k).getD []).set x true)

/-- Lines 114 to 119. -/
def stepDomain (st : State) (tr : Triple) : Option State :=
  if TermsEqual tr.Pred (.iri rdfsDomain) then
    tr.Obj.asIRI.bind fun o =>
      tr.Subj.asIRI.bind fun s =>
        some { st with classes := addToSet st.classes o s }
  else some st

/-- Lines 120 to 128. -/
def stepRange (st : State) (tr : Triple) : Option State :=
  if TermsEqual tr.Pred (.iri rdfsRange) then
    tr.Obj.asIRI.bind fun obj =>
      if st.classes.contains obj then
        some { st with relations := addToSet st.relations st.curProp obj }
      else some st
  else some st

/-- One iteration of the loop at line 96. -/
def step (prefLang : String) (st : State) (tr : Triple) : Option State :=
  (stepClass st tr).bind fun s1 =>
  (stepClassLabel prefLang s1 tr).bind fun s2 =>
  (stepProperty s2 tr).bind fun s3 =>
  (stepPropertyLabel prefLang s3 tr).bind fun s4 =>
  (stepDomain s4 tr).bind fun s5 =>
  stepRange s5 tr

/-- The loop at line 96, started in any state. -/
def runFrom (prefLang : String) : State → List Triple → Option State
  | st, [] => some st
  | st, tr :: trs => (step prefLang st tr).bind fun st1 => runFrom prefLang st1 trs

/-- The whole statement pass. -/
def run (prefLang : String) (trs : List Triple) : Option State :=
  runFrom prefLang State.init trs

/-! ## The model construction (lines 131 to 160) -/

/-- A `Class` of the model (line 47). -/
structure Class where
  Label : String
  Literals : List String
  deriving DecidableEq, Repr

/-- A `Link` of the model (line 57). -/
structure Link where
  From : String
  To : String
  Label : String
  deriving DecidableEq, Repr

/-- The `Ontology` handed to the template (line 52). -/
structure Ontology where
  Classes : List Class
  Links : List Link
  deriving DecidableEq, Repr

/-- The orders in which the three `range` loops visit the keys of their maps:
the class map, the property set of a class, and the range set of a property
each time it is visited for a class. -/
structure Enumeration where
  classOrder : List IRI
  propOrder : IRI → List IRI
  rangeOrder : IRI → IRI → List IRI

/-- The property set `props` that the outer loop reads for `c`. -/
def State.props (st : State) (c : IRI) : GoMap IRI Bool := (st.classes.get? c).getD []

/-- The range set `rel` that line 139 reads for `lit`. -/
def State.rel (st : State) (lit : IRI) : GoMap IRI Bool := (st.relations.get? lit).getD []

/-- An enumeration fits a state when every loop visits exactly the keys of its
map, each once. -/
def Enumeration.Valid (st : State) (e : Enumeration) : Prop :=
  e.classOrder.Perm st.classes.keys ∧
  (∀ c ∈ st.classes.keys, (e.propOrder c).Perm (st.props c).keys) ∧
  (∀ c ∈ st.classes.keys, ∀ lit ∈ (st.props c).keys,
    (e.rangeOrder c lit).Perm (st.rel lit).keys)

/-- The enumeration that visits every map in the order its keys were added. -/
def State.insertionOrder (st : State) : Enumeration :=
  ⟨st.classes.keys, fun c => (st.props c).keys, fun _ lit => (st.rel lit).keys⟩

/-- The line written by `log.Printf` at line 149, with the prefix set at line 62. -/
def diagnostic (prefLang : String) (lit : IRI) : String :=
  "onto2dot: missing @" ++ prefLang ++ " label for " ++ lit.str ++ "\n"

/-- The loop at lines 140 to 146: one link appended per visited range class. -/
def rangeLoop (st : State) (cls lit : IRI) : List IRI → List Link → List Link
  | [], links => links
  | obj :: objs, links =>
    rangeLoop st cls lit objs (links ++ [⟨st.label cls, st.label obj, st.label lit⟩])

/-- What the loops have produced so far: attribute rows of the current class,
the links, the diagnostics written. -/
structure Acc where
  lits : List String
  links : List Link
  log : List String
  deriving DecidableEq, Repr

/-- The loop at lines 138 to 154 over the properties of one class. -/
def propLoop (prefLang : String) (st : State) (e : Enumeration) (cls : IRI) :
    List IRI → Acc → Acc
  | [], a => a
  | lit :: lits, a =>
    propLoop prefLang st e cls lits
      (if st.relations.contains lit then
        { a with links := rangeLoop st cls lit (e.rangeOrder cls lit) a.links }
      else if st.label lit = "" then
        { a with log := a.log ++ [diagnostic prefLang lit] }
      else
        { a with lits := a.lits ++ [st.label lit] })

/-- The result of the construction: the model, the `links` variable and the
diagnostics. -/
structure Out where
  ont : Ontology
  links : List Link
  log : List String
  deriving DecidableEq, Repr

/-- The loop at lines 136 to 160 over the classes. -/
def classLoop (prefLang : String) (st : State) (e : Enumeration) : List IRI → Out → Out
  | [], o => o
  | cls :: rest, o =>
    let a := propLoop prefLang st e cls (e.propOrder cls) ⟨[], o.links, o.log⟩
    classLoop prefLang st e rest
      ⟨⟨o.ont.Classes ++ [⟨st.label cls, a.lits⟩], a.links⟩, a.links, a.log⟩

/-- The model construction under a given enumeration. -/
def build (prefLang : String) (st : State) (e : Enumeration) : Out :=
  classLoop prefLang st e e.classOrder ⟨⟨[], []⟩, [], []⟩

/-- The extractor: the statement pass followed by the model construction. -/
def extract (prefLang : String) (trs : List Triple) (e : State → Enumeration) : Option Out :=
  (run prefLang trs).map fun st => build prefLang st (e st)

instance (st : State) (e : Enumeration) : Decidable (e.Valid st) := by
  unfold Enumeration.Valid; infer_instance

/-! ## Provenance of the rows, links and diagnostics

The model holds labels only.  To speak of the links "produced for a property"
the visits of the three loops are listed by the resources they are made for. -/

/-- The test at line 139 for a property to be rendered as links. -/
def State.hasRange (st : State) (lit : IRI) : Bool := st.relations.contains lit

/-- The `(class, property, range class)` visits that append a link, in order,
within one class. -/
def linkVisitsOf (st : State) (e : Enumeration) (cls : IRI) : List (IRI × IRI × IRI) :=
  (e.propOrder cls).flatMap fun lit =>
    if st.hasRange lit then (e.rangeOrder cls lit).map fun obj => (cls, lit, obj) else []

/-- All visits that append a link, in order. -/
def linkVisits (st : State) (e : Enumeration) : List (IRI × IRI × IRI) :=
  e.classOrder.flatMap (linkVisitsOf st e)

/-- The link appended at lines 141 to 145. -/
def State.mkLink (st : State) (v : IRI × IRI × IRI) : Link :=
  ⟨st.label v.1, st.label v.2.2, st.label v.2.1⟩

/-- The properties that append an attribute row to the class, in order. -/
def attrVisitsOf (st : State) (e : Enumeration) (cls : IRI) : List IRI :=
  (e.propOrder cls).filter fun lit => !st.hasRange lit && !decide (st.label lit = "")

/-- The properties that write a diagnostic while the class is visited, in order. -/
def logVisitsOf (st : State) (e : Enumeration) (cls : IRI) : List IRI :=
  (e.propOrder cls).filter fun lit => !st.hasRange lit && decide (st.label lit = "")

/-- The `(class, property)` visits that write a diagnostic, in order. -/
def logVisits (st : State) (e : Enumeration) : List (IRI × IRI) :=
  e.classOrder.flatMap fun cls => (logVisitsOf st e cls).map fun lit => (cls, lit)

/-- The record appended at lines 155 to 158 for a class. -/
def classRecord (st : State) (e : Enumeration) (cls : IRI) : Class :=
  ⟨st.label cls, (attrVisitsOf st e cls).map st.label⟩

/-! ## Well-formed states -/

/-- What every state reached by the pass satisfies: the maps have pairwise
distinct keys, a recorded range set is never empty, and its members are
known classes. -/
def State.WF (st : State) : Prop :=
  st.classes.keys.Nodup ∧ (∀ c, (st.props c).keys.Nodup) ∧
  st.relations.keys.Nodup ∧ (∀ p, (st.rel p).keys.Nodup) ∧
  (∀ p, st.hasRange p = true → (st.rel p).keys ≠ []) ∧
  (∀ p, ∀ o ∈ (st.rel p).keys, o ∈ st.classes.keys)

/-- The classes whose property set contains `p`: the set `D(p)`. -/
def domainClasses (st : State) (p : IRI) : List IRI :=
  st.classes.keys.filter fun c => decide (p ∈ (st.props c).keys)

/-- The recorded range set of `p`: the set `R(p)`. -/
def rangeClasses (st : State) (p : IRI) : List IRI := (st.rel p).keys

/-! ## Statements of the scenarios -/

/-- The five IRIs of the RDF Schema vocabulary that the program compares with. -/
def vocabulary : List IRI := [rdfsClass, rdfsLabel, rdfsProperty, rdfsDomain, rdfsRange]

/-- The statement "`s` is-a `c`". -/
def stmtIsA (s c : IRI) : Triple := ⟨.iri s, .iri rdfType, .iri c⟩

/-- The statement "`s` label `v`@`lang`". -/
def stmtLabel (s : IRI) (v lang : String) : Triple :=
  ⟨.iri s, .iri rdfsLabel, .literal ⟨v, lang⟩⟩

/-- The statement "`p` domain `c`". -/
def stmtDomain (p c : IRI) : Triple := ⟨.iri p, .iri rdfsDomain, .iri c⟩

/-- The statement "`p` range `c`". -/
def stmtRange (p c : IRI) : Triple := ⟨.iri p, .iri rdfsRange, .iri c⟩

/-- The sequence of the first scenario: two labelled classes and a labelled
property with the first as domain and the second as range. -/
def scenarioLink (lang : String) (c1 c2 p1 : IRI) (l1 l2 lp : String) : List Triple :=
  [stmtIsA c1 rdfsClass, stmtLabel c1 l1 lang, stmtIsA c2 rdfsClass, stmtLabel c2 l2 lang,
   stmtIsA p1 rdfsProperty, stmtLabel p1 lp lang, stmtDomain p1 c1, stmtRange p1 c2]

/-- The sequence of the second scenario: a labelled class and a labelled
property with that class as domain and no range. -/
def scenarioAttribute (lang : String) (c1 p2 : IRI) (l1 lp : String) : List Triple :=
  [stmtIsA c1 rdfsClass, stmtLabel c1 l1 lang, stmtIsA p2 rdfsProperty,
   stmtLabel p2 lp lang, stmtDomain p2 c1]

/-- Two labelled classes and a property with both as domain and both as
range, one domain and one range statement repeated. -/
def crossTriples : List Triple :=
  [stmtIsA ⟨"urn:A"⟩ rdfsClass, stmtLabel ⟨"urn:A"⟩ "A" "no",
   stmtIsA ⟨"urn:B"⟩ rdfsClass, stmtLabel ⟨"urn:B"⟩ "B" "no",
   stmtIsA ⟨"urn:P"⟩ rdfsProperty, stmtLabel ⟨"urn:P"⟩ "rel" "no",
   stmtDomain ⟨"urn:P"⟩ ⟨"urn:A"⟩, stmtDomain ⟨"urn:P"⟩ ⟨"urn:B"⟩,
   stmtDomain ⟨"urn:P"⟩ ⟨"urn:A"⟩, stmtRange ⟨"urn:P"⟩ ⟨"urn:A"⟩,
   stmtRange ⟨"urn:P"⟩ ⟨"urn:B"⟩, stmtRange ⟨"urn:P"⟩ ⟨"urn:B"⟩]

/-- The state the pass reaches on `crossTriples`. -/
def crossState : State :=
  ⟨[(⟨"urn:A"⟩, [(⟨"urn:P"⟩, true)]), (⟨"urn:B"⟩, [(⟨"urn:P"⟩, true)])],
   [(⟨"urn:A"⟩, "A"), (⟨"urn:B"⟩, "B"), (⟨"urn:P"⟩, "rel")],
   [(⟨"urn:P"⟩, [(⟨"urn:A"⟩, true), (⟨"urn:B"⟩, true)])], ⟨"urn:B"⟩, ⟨"urn:P"⟩⟩

/-- A property group that comes before the declaration of its domain class:
the property, its label, its domain statement, then the class and its label. -/
def domainFirstTriples : List Triple :=
  [stmtIsA ⟨"urn:P"⟩ rdfsProperty, stmtLabel ⟨"urn:P"⟩ "age" "no",
   stmtDomain ⟨"urn:P"⟩ ⟨"urn:C"⟩,
   stmtIsA ⟨"urn:C"⟩ rdfsClass, stmtLabel ⟨"urn:C"⟩ "Person" "no"]

/-- The same statements with the class group first. -/
def classFirstTriples : List Triple :=
  [stmtIsA ⟨"urn:C"⟩ rdfsClass, stmtLabel ⟨"urn:C"⟩ "Person" "no",
   stmtIsA ⟨"urn:P"⟩ rdfsProperty, stmtLabel ⟨"urn:P"⟩ "age" "no",
   stmtDomain ⟨"urn:P"⟩ ⟨"urn:C"⟩]

/-- The class set as the specification words it: the resources typed as
Class, together with every object of a range statement of a property that has
a domain statement pointing to a known class. -/
def specClassSet (trs : List Triple) (known : List IRI) (x : IRI) : Bool :=
  (trs.any fun tr => decide (tr = stmtIsA x rdfsClass)) ||
  (trs.any fun tr =>
    decide (tr.Pred = .iri rdfsRange ∧ tr.Obj = .iri x) &&
    trs.any fun d =>
      decide (d.Subj = tr.Subj ∧ d.Pred = .iri rdfsDomain) &&
      known.any fun c => decide (d.Obj = .iri c))

/-- A class group followed by a property group with two domain statements,
the second naming a resource that is never declared, and a range statement
naming another undeclared resource. -/
def undeclaredTriples : List Triple :=
  [stmtIsA ⟨"urn:C"⟩ rdfsClass, stmtLabel ⟨"urn:C"⟩ "Person" "no",
   stmtIsA ⟨"urn:P"⟩ rdfsProperty, stmtLabel ⟨"urn:P"⟩ "owns" "no",
   stmtDomain ⟨"urn:P"⟩ ⟨"urn:C"⟩, stmtDomain ⟨"urn:P"⟩ ⟨"urn:D"⟩,
   stmtRange ⟨"urn:P"⟩ ⟨"urn:X"⟩]

/-- The state the pass reaches on `undeclaredTriples`. -/
def undeclaredState : State :=
  ⟨[(⟨"urn:C"⟩, [(⟨"urn:P"⟩, true)]), (⟨"urn:D"⟩, [(⟨"urn:P"⟩, true)])],
   [(⟨"urn:C"⟩, "Person"), (⟨"urn:P"⟩, "owns")], [], ⟨"urn:C"⟩, ⟨"urn:P"⟩⟩

/-- A label statement for `x` in the preferred language with value `v`. -/
def IsLabelOf (lang : String) (x : IRI) (v : String) (tr : Triple) : Prop :=
  tr.Subj = .iri x ∧ tr.Pred = .iri rdfsLabel ∧ ∃ l, tr.Obj = .literal l ∧ l.lang = lang ∧ l.str = v

/-- A class with a label in English only. -/
def foreignLabelTriples : List Triple :=
  [stmtIsA ⟨"urn:C"⟩ rdfsClass, stmtLabel ⟨"urn:C"⟩ "Person" "en"]

/-- The state the pass reaches on `foreignLabelTriples` when Norwegian is preferred. -/
def foreignLabelState : State := ⟨[(⟨"urn:C"⟩, [])], [], [], ⟨"urn:C"⟩, ⟨""⟩⟩

/-- The `(class, property)` pairs of a state where the property is attached
to the class, has no recorded range and has an empty label. -/
def unresolvedPairs (st : State) : List (IRI × IRI) :=
  st.classes.keys.flatMap fun c =>
    ((st.props c).keys.filter fun lit =>
      !st.hasRange lit && decide (st.label lit = "")).map fun lit => (c, lit)

/-- The number of fields of the model that hold an empty label: the labels of
the class records and the three fields of every link. -/
def emptyFields (m : Ontology) : Nat :=
  (m.Classes.filter fun c => decide (c.Label = "")).length +
  (m.Links.map fun l =>
    (if l.From = "" then 1 else 0) + (if l.To = "" then 1 else 0)
      + (if l.Label = "" then 1 else 0)).sum

/-- A class and a property with that class as domain and range, no labels. -/
def unlabelledLinkTriples : List Triple :=
  [stmtIsA ⟨"urn:A"⟩ rdfsClass, stmtIsA ⟨"urn:P"⟩ rdfsProperty,
   stmtDomain ⟨"urn:P"⟩ ⟨"urn:A"⟩, stmtRange ⟨"urn:P"⟩ ⟨"urn:A"⟩]

/-- The state the pass reaches on `unlabelledLinkTriples`. -/
def unlabelledLinkState : State :=
  ⟨[(⟨"urn:A"⟩, [(⟨"urn:P"⟩, true)])], [], [(⟨"urn:P"⟩, [(⟨"urn:A"⟩, true)])],
   ⟨"urn:A"⟩, ⟨"urn:P"⟩⟩

/-- A class with one labelled and one unlabelled attribute property. -/
def halfLabelledTriples : List Triple :=
  [stmtIsA ⟨"urn:A"⟩ rdfsClass, stmtLabel ⟨"urn:A"⟩ "A" "no",
   stmtIsA ⟨"urn:P"⟩ rdfsProperty, stmtLabel ⟨"urn:P"⟩ "age" "no",
   stmtDomain ⟨"urn:P"⟩ ⟨"urn:A"⟩,
   stmtIsA ⟨"urn:Q"⟩ rdfsProperty, stmtDomain ⟨"urn:Q"⟩ ⟨"urn:A"⟩]

/-- The state the pass reaches on `halfLabelledTriples`. -/
def halfLabelledState : State :=
  ⟨[(⟨"urn:A"⟩, [(⟨"urn:P"⟩, true), (⟨"urn:Q"⟩, true)])],
   [(⟨"urn:A"⟩, "A"), (⟨"urn:P"⟩, "age")], [], ⟨"urn:A"⟩, ⟨"urn:Q"⟩⟩

/-- An enumeration of `crossState` that visits every map in the reverse of
the insertion order. -/
def crossReversed : Enumeration :=
  ⟨[⟨"urn:B"⟩, ⟨"urn:A"⟩], fun _ => [⟨"urn:P"⟩], fun _ _ => [⟨"urn:B"⟩, ⟨"urn:A"⟩]⟩

/-- A range statement that the range part ignores and that moves nothing
else: its object is an IRI, not a key of the class map, and neither
`rdfs:Class` nor `rdfs:Property`. -/
def ignoredRange (st : State) (tr : Triple) : Bool :=
  match tr.Obj with
  | .iri o => !st.classes.contains o && !decide (o = rdfsClass) && !decide (o = rdfsProperty)
  | _ => false

/-- Along the pass from `st`, every range statement that is processed while
`p` is the property cursor is an ignored one. -/
def rangesIgnoredFor (lang : String) (p : IRI) : State → List Triple → Bool
  | _, [] => true
  | st, tr :: trs =>
    match step lang st tr with
    | none => true
    | some st1 =>
      (!(decide (tr.Pred = .iri rdfsRange) && decide (st1.curProp = p)) || ignoredRange st tr)
        && rangesIgnoredFor lang p st1 trs

/-- A property whose only range statement names a datatype, followed by a
range statement of another property that names a class. -/
def strayRangeTriples : List Triple :=
  [stmtIsA ⟨"urn:C"⟩ rdfsClass, stmtIsA ⟨"urn:P"⟩ rdfsProperty,
   stmtDomain ⟨"urn:P"⟩ ⟨"urn:C"⟩, stmtRange ⟨"urn:P"⟩ ⟨"urn:string"⟩,
   stmtRange ⟨"urn:Q"⟩ ⟨"urn:C"⟩]

/-- The state the pass reaches on `strayRangeTriples`. -/
def strayRangeState : State :=
  ⟨[(⟨"urn:C"⟩, [(⟨"urn:P"⟩, true)])], [], [(⟨"urn:P"⟩, [(⟨"urn:C"⟩, true)])],
   ⟨"urn:C"⟩, ⟨"urn:P"⟩⟩

/-- A property with a domain and a range statement that names a datatype. -/
def datatypeRangeTriples : List Triple :=
  [stmtIsA ⟨"urn:C"⟩ rdfsClass, stmtIsA ⟨"urn:P"⟩ rdfsProperty,
   stmtDomain ⟨"urn:P"⟩ ⟨"urn:C"⟩, stmtRange ⟨"urn:P"⟩ ⟨"urn:string"⟩]

/-- The state the pass reaches on `datatypeRangeTriples`. -/
def datatypeRangeState : State :=
  ⟨[(⟨"urn:C"⟩, [(⟨"urn:P"⟩, true)])], [], [], ⟨"urn:C"⟩, ⟨"urn:P"⟩⟩

/-- The resources that a statement of the sequence registers as a class: the
IRI subjects of the statements whose object is `rdfs:Class` and the IRI
objects of the domain statements, one entry per statement. -/
def classResources (trs : List Triple) : List IRI :=
  trs.flatMap fun tr =>
    (if tr.Obj = .iri rdfsClass then tr.Subj.asIRI.toList else []) ++
    (if tr.Pred = .iri rdfsDomain then tr.Obj.asIRI.toList else [])

/-- Two class declarations followed by a label of the first class: the
statements about the first class are not contiguous. -/
def ungroupedClassTriples : List Triple :=
  [stmtIsA ⟨"urn:A"⟩ rdfsClass, stmtIsA ⟨"urn:B"⟩ rdfsClass, stmtLabel ⟨"urn:A"⟩ "A" "no"]

/-- Two property declarations followed by a label of the first property. -/
def ungroupedPropertyTriples : List Triple :=
  [stmtIsA ⟨"urn:P"⟩ rdfsProperty, stmtIsA ⟨"urn:Q"⟩ rdfsProperty,
   stmtLabel ⟨"urn:P"⟩ "p" "no"]

/-- The `rdfs:subClassOf` predicate, which the program never compares with. -/
def rdfsSubClassOf : IRI := ⟨"http://www.w3.org/2000/01/rdf-schema#subClassOf"⟩

/-- A sequence that declares `rdfs:Property` itself to be a class, then a
property. -/
def metaTriples : List Triple :=
  [stmtIsA rdfsProperty rdfsClass, stmtIsA ⟨"urn:P"⟩ rdfsProperty]

/-- The state the pass reaches on `metaTriples`. -/
def metaState : State := ⟨[(rdfsProperty, [])], [], [], rdfsProperty, ⟨"urn:P"⟩⟩

/-! ## The template (lines 12 to 29) and its execution (line 162)

The template is the text between the back quotes at line 12 and line 29.  It
is split at its actions into the text pieces below, in source order.  A minus
sign inside an action trims the white space of the neighbouring text piece on
that side; the package `text/template` writes every value as it is, without
escaping. -/

/-- The template text of the source, tabs and line breaks included. -/
def tmpl : String :=
  "digraph Ontology \x7b\n\tnode [shape=plaintext];\n\n\t\x7b\x7brange .Classes -\x7d\x7d\n\t\t\"\x7b\x7b.Label\x7d\x7d\"[label=<<TABLE BORDER='0' CELLBORDER='1' CELLSPACING='0' CELLPADDING='5'>\n\t\t\t<TR>\n\t\t\t\t<TD ALIGN='LEFT' BGCOLOR='#e0e0e0'><FONT POINT-SIZE='12' FACE='monospace'>\x7b\x7b.Label\x7d\x7d</FONT><BR ALIGN='LEFT'/></TD>\n\t\t\t</TR>\n\t\t\t\x7b\x7b- range .Literals -\x7d\x7d\n\t\t\t<TR><TD ALIGN='LEFT'><B>\x7b\x7b.\x7d\x7d</B><BR ALIGN='LEFT'/></TD></TR>\n\t\t\t\x7b\x7bend\x7d\x7d\n\t\t</TABLE>>];\n\t\x7b\x7bend\x7d\x7d\n\t\x7b\x7brange .Links -\x7d\x7d\n\t\t\"\x7b\x7b.From\x7d\x7d\"->\"\x7b\x7b.To\x7d\x7d\"[label=<<B>\x7b\x7b.Label\x7d\x7d</B>>];\n\t\x7b\x7bend\x7d\x7d\n\x7d\n"

/-- The text before the range over the classes. -/
def txtHead : String := "digraph Ontology \x7b\n\tnode [shape=plaintext];\n\n\t"

/-- The text between the start of the class range and the first label. -/
def txtNodeOpen : String := "\n\t\t\""

/-- The text between the two labels of a node statement. -/
def txtNodeTable : String :=
  "\"[label=<<TABLE BORDER='0' CELLBORDER='1' CELLSPACING='0' CELLPADDING='5'>\n\t\t\t<TR>\n\t\t\t\t<TD ALIGN='LEFT' BGCOLOR='#e0e0e0'><FONT POINT-SIZE='12' FACE='monospace'>"

/-- The text between the header label and the range over the attribute rows. -/
def txtHeaderClose : String := "</FONT><BR ALIGN='LEFT'/></TD>\n\t\t\t</TR>\n\t\t\t"

/-- The text between the start of the row range and the row value. -/
def txtRowOpen : String := "\n\t\t\t<TR><TD ALIGN='LEFT'><B>"

/-- The text between the row value and the end of the row range. -/
def txtRowClose : String := "</B><BR ALIGN='LEFT'/></TD></TR>\n\t\t\t"

/-- The text between the end of the row range and the end of the class range. -/
def txtNodeClose : String := "\n\t\t</TABLE>>];\n\t"

/-- The text between the class range and the link range. -/
def txtMiddle : String := "\n\t"

/-- The text between the start of the link range and the from-label. -/
def txtEdgeOpen : String := "\n\t\t\""

/-- The text between the from-label and the to-label. -/
def txtArrow : String := "\"->\""

/-- The text between the to-label and the relation label. -/
def txtEdgeLabel : String := "\"[label=<<B>"

/-- The text between the relation label and the end of the link range. -/
def txtEdgeClose : String := "</B>>];\n\t"

/-- The text after the link range. -/
def txtTail : String := "\n\x7d\n"

/-- The white space that a trim marker removes: space, tab, carriage return,
line feed. -/
def goSpace (c : Char) : Bool := c == ' ' || c == '\t' || c == '\r' || c == '\n'

/-- The effect of `-}}` on the text that follows it. -/
def trimLeft (s : String) : String := ⟨s.data.dropWhile goSpace⟩

/-- The effect of `{{-` on the text that precedes it. -/
def trimRight (s : String) : String := ⟨(s.data.reverse.dropWhile goSpace).reverse⟩

/-- The range over `.Literals`: one row written per attribute label. -/
def renderLiterals : List String → String → String
  | [], out => out
  | lit :: lits, out => renderLiterals lits (out ++ trimLeft txtRowOpen ++ lit ++ txtRowClose)

/-- The range over `.Classes`: one node statement written per class record. -/
def renderClasses : List Class → String → String
  | [], out => out
  | c :: cs, out =>
    renderClasses cs
      (renderLiterals c.Literals
        (out ++ trimLeft txtNodeOpen ++ c.Label ++ txtNodeTable ++ c.Label
          ++ trimRight txtHeaderClose) ++ txtNodeClose)

/-- The range over `.Links`: one edge statement written per link. -/
def renderLinks : List Link → String → String
  | [], out => out
  | l :: ls, out =>
    renderLinks ls
      (out ++ trimLeft txtEdgeOpen ++ l.From ++ txtArrow ++ l.To ++ txtEdgeLabel ++ l.Label
        ++ txtEdgeClose)

/-- The document written by `dotTmpl.Execute(os.Stdout, ont)`. -/
def render (ont : Ontology) : String :=
  renderLinks ont.Links (renderClasses ont.Classes txtHead ++ txtMiddle) ++ txtTail

/-- The concatenation of a list of strings, first to last. -/
def concat : List String → String
  | [] => ""
  | s :: ss => s ++ concat ss

/-- The node statement of a class record. -/
def nodeStatement (c : Class) : String :=
  "\"" ++ c.Label ++ txtNodeTable ++ c.Label ++ "</FONT><BR ALIGN='LEFT'/></TD>\n\t\t\t</TR>"
    ++ concat (c.Literals.map fun lit =>
        "<TR><TD ALIGN='LEFT'><B>" ++ lit ++ "</B><BR ALIGN='LEFT'/></TD></TR>\n\t\t\t")
    ++ "\n\t\t</TABLE>>];\n\t"

/-- The edge statement of a link, without the white space that follows it. -/
def edgeStatement (l : Link) : String :=
  "\"" ++ l.From ++ "\"->\"" ++ l.To ++ "\"[label=<<B>" ++ l.Label ++ "</B>>];"

/-- A model whose labels hold the characters that are significant in markup. -/
def markupOntology : Ontology :=
  ⟨[⟨"a<b", ["x&y"]⟩, ⟨"\"q\"", []⟩], [⟨"a<b", "\"q\"", "r>s"⟩]⟩

/-- Every member of every recorded range set is a key of the class map. -/
def State.RangesKnown (st : State) : Prop :=
  ∀ p, ∀ o ∈ (st.rel p).keys, o ∈ st.classes.keys

/-- The link visits of a state in insertion order, the order every
enumeration is a rearrangement of. -/
def allLinkVisits (st : State) : List (IRI × IRI × IRI) :=
  st.classes.keys.flatMap fun c =>
    (st.props c).keys.flatMap fun lit =>
      if st.hasRange lit then (st.rel lit).keys.map fun obj => (c, lit, obj) else []

/-- A class record with its attribute rows taken as a multiset. -/
def normalClass (c : Class) : String × Multiset String := (c.Label, (c.Literals : Multiset String))

/-- The class records of a state in insertion order, rows as multisets. -/
def allClassRecords (st : State) : List (String × Multiset String) :=
  st.classes.keys.map fun c =>
    (st.label c,
      ((((st.props c).keys.filter fun lit =>
        !st.hasRange lit && !decide (st.label lit = "")).map st.label : List String)
          : Multiset String))

/-- The precondition on a statement: the subject is an IRI, the object of a
label statement is a literal, the object of a domain or range statement is an
IRI. -/
def wellTyped (tr : Triple) : Bool :=
  tr.Subj.asIRI.isSome &&
  (!decide (tr.Pred = .iri rdfsLabel) || tr.Obj.asLiteral.isSome) &&
  (!(decide (tr.Pred = .iri rdfsDomain) || decide (tr.Pred = .iri rdfsRange))
    || tr.Obj.asIRI.isSome)

/-! ## Lemmas on Go maps -/

namespace GoMap

variable {κ ν : Type} [DecidableEq κ]

theorem get?_set_self (m : GoMap κ ν) (k : κ) (v : ν) : get? (set m k v) k = some v := by
  induction m with
  | nil => simp [set, get?]
  | cons hd tl ih =>
    obtain ⟨k', v'⟩ := hd
    by_cases h : k' = k <;> simp [set, get?, h, ih]

theorem get?_set_ne (m : GoMap κ ν) {k x : κ} (v : ν) (h : k ≠ x) :
    get? (set m k v) x = get? m x := by
  induction m with
  | nil => simp [set, get?, h]
  | cons hd tl ih =>
    obtain ⟨k', v'⟩ := hd
    by_cases h1 : k' = k
    · subst h1; simp [set, get?, h]
    · by_cases h2 : k' = x
      · subst h2; simp [set, get?, h1]
      · simp [set, get?, h1, h2, ih]

theorem set_set_self (m : GoMap κ ν) (k : κ) (v w : ν) : set (set m k v) k w = set m k w := by
  induction m with
  | nil => simp [set]
  | cons hd tl ih =>
    obtain ⟨k', v'⟩ := hd
    by_cases h : k' = k <;> simp [set, h, ih]

theorem contains_iff_mem_keys (m : GoMap κ ν) (k : κ) : contains m k = true ↔ k ∈ keys m := by
  induction m with
  | nil => simp [contains, get?, keys]
  | cons hd tl ih =>
    obtain ⟨k', v'⟩ := hd
    by_cases h : k' = k
    · simp [contains, get?, keys, h]
    · have h2 : ¬ k = k' := fun e => h e.symm
      simpa [contains, get?, keys, h, h2] using ih

theorem get?_eq_none_iff (m : GoMap κ ν) (k : κ) : get? m k = none ↔ k ∉ keys m := by
  rw [← contains_iff_mem_keys]; simp [contains]

theorem keys_set (m : GoMap κ ν) (k : κ) (v : ν) :
    keys (set m k v) = if k ∈ keys m then keys m else keys m ++ [k] := by
  induction m with
  | nil => simp [set, keys]
  | cons hd tl ih =>
    obtain ⟨k', v'⟩ := hd
    by_cases h : k' = k
    · subst h; simp [set, keys]
    · have h2 : ¬ k = k' := fun e => h e.symm
      have ih2 := ih
      simp only [keys] at ih2
      simp only [set, keys, h, if_false, List.map_cons, List.mem_cons, h2, false_or, ih2]
      split <;> simp

theorem mem_keys_set (m : GoMap κ ν) (k x : κ) (v : ν) :
    x ∈ keys (set m k v) ↔ x = k ∨ x ∈ keys m := by
  rw [keys_set]; split
  · constructor
    · exact Or.inr
    · rintro (h | h)
      · subst h; assumption
      · exact h
  · simp [or_comm]

theorem nodup_keys_set (m : GoMap κ ν) (k : κ) (v : ν) (h : (keys m).Nodup) :
    (keys (set m k v)).Nodup := by
  rw [keys_set]; split
  · exact h
  · rename_i hk
    exact List.Nodup.append h (List.nodup_singleton k) (by simpa using hk)

theorem get?_set (m : GoMap κ ν) (k x : κ) (v : ν) :
    get? (set m k v) x = if k = x then some v else get? m x := by
  by_cases h : k = x
  · subst h; simp [get?_set_self]
  · simp [h, get?_set_ne m v h]

end GoMap

theorem get?_addToSet (m : GoMap IRI (GoMap IRI Bool)) (k x c : IRI) :
    (addToSet m k x).get? c
      = if k = c then some (((m.get? k).getD []).set x true) else m.get? c := by
  unfold addToSet
  by_cases hk : m.contains k = true
  · simp [hk, GoMap.get?_set]
  · have hn : m.get? k = none := by simpa [GoMap.contains] using hk
    by_cases hc : k = c
    · subst hc; simp [hk, GoMap.get?_set, hn]
    · simp [hk, GoMap.get?_set, hn, hc]

theorem mem_keys_addToSet (m : GoMap IRI (GoMap IRI Bool)) (k x c : IRI) :
    c ∈ (addToSet m k x).keys ↔ c = k ∨ c ∈ m.keys := by
  unfold addToSet
  by_cases hk : m.contains k = true
  · simp [hk, GoMap.mem_keys_set]
  · simp [hk, GoMap.mem_keys_set]

theorem nodup_keys_addToSet (m : GoMap IRI (GoMap IRI Bool)) (k x : IRI)
    (h : m.keys.Nodup) : (addToSet m k x).keys.Nodup := by
  unfold addToSet
  by_cases hk : m.contains k = true
  · simpa [hk] using GoMap.nodup_keys_set m k _ h
  · simpa [hk] using GoMap.nodup_keys_set _ k _ (GoMap.nodup_keys_set m k [] h)

/-! ## The step on the statements of the vocabulary -/

theorem step_isA_class (lang : String) (st : State) (s : IRI) :
    step lang st (stmtIsA s rdfsClass)
      = some { st with classes := st.classes.set s [], curSubj := s } := by
  have h1 : ¬ rdfType = rdfsLabel := by decide
  have h2 : ¬ rdfsClass = rdfsProperty := by decide
  have h3 : ¬ rdfType = rdfsDomain := by decide
  have h4 : ¬ rdfType = rdfsRange := by decide
  simp [step, stmtIsA, stepClass, stepClassLabel, stepProperty, stepPropertyLabel,
    stepDomain, stepRange, TermsEqual, Term.asIRI, h1, h2, h3, h4]

theorem step_isA_property (lang : String) (st : State) (s : IRI) :
    step lang st (stmtIsA s rdfsProperty) = some { st with curProp := s } := by
  have h1 : ¬ rdfType = rdfsLabel := by decide
  have h2 : ¬ rdfsProperty = rdfsClass := by decide
  have h3 : ¬ rdfType = rdfsDomain := by decide
  have h4 : ¬ rdfType = rdfsRange := by decide
  simp [step, stmtIsA, stepClass, stepClassLabel, stepProperty, stepPropertyLabel,
    stepDomain, stepRange, TermsEqual, Term.asIRI, h1, h2, h3, h4]

/-- A label statement in the preferred language writes the label of each
cursor that equals its subject, and nothing else. -/
theorem step_label (lang : String) (st : State) (s : IRI) (v : String) :
    step lang st (stmtLabel s v lang)
      = some { st with iriLabels :=
          if s = st.curSubj ∨ s = st.curProp then st.iriLabels.set s v else st.iriLabels } := by
  have h3 : ¬ rdfsLabel = rdfsDomain := by decide
  have h4 : ¬ rdfsLabel = rdfsRange := by decide
  by_cases hs : s = st.curSubj <;> by_cases hp : s = st.curProp <;>
    simp [step, stmtLabel, stepClass, stepClassLabel, stepProperty, stepPropertyLabel,
      stepDomain, stepRange, TermsEqual, Term.asLiteral, h3, h4, hs, hp] <;>
    simp_all [GoMap.set_set_self]

/-- A domain statement with an IRI object: the object registers the subject
as a class when it is `rdfs:Class`, moves the property cursor when it is
`rdfs:Property`, and the subject is attached to the object in every case. -/
theorem step_domain_gen (lang : String) (st : State) (s o : IRI) :
    step lang st (stmtDomain s o)
      = some { st with
          classes := addToSet (if o = rdfsClass then st.classes.set s [] else st.classes) o s
          curSubj := if o = rdfsClass then s else st.curSubj
          curProp := if o = rdfsProperty then s else st.curProp } := by
  have h1 : ¬ rdfsDomain = rdfsLabel := by decide
  have h4 : ¬ rdfsDomain = rdfsRange := by decide
  have hcp : ¬ rdfsClass = rdfsProperty := by decide
  have hpc : ¬ rdfsProperty = rdfsClass := by decide
  by_cases hc : o = rdfsClass <;> by_cases hp : o = rdfsProperty <;>
    simp [step, stmtDomain, stepClass, stepClassLabel, stepProperty, stepPropertyLabel,
      stepDomain, stepRange, TermsEqual, Term.asIRI, h1, h4, hc, hp, hcp, hpc]

theorem step_domain (lang : String) (st : State) (s o : IRI)
    (hc : o ≠ rdfsClass) (hp : o ≠ rdfsProperty) :
    step lang st (stmtDomain s o)
      = some { st with classes := addToSet st.classes o s } := by
  simp [step_domain_gen, hc, hp]

/-- A range statement with an IRI object, in full: the object is compared
with `rdfs:Class` and `rdfs:Property` before the predicate is looked at. -/
theorem step_range_gen (lang : String) (st : State) (s o : IRI) :
    step lang st (stmtRange s o)
      = some { st with
          classes := if o = rdfsClass then st.classes.set s [] else st.classes
          curSubj := if o = rdfsClass then s else st.curSubj
          curProp := if o = rdfsProperty then s else st.curProp
          relations :=
            if (if o = rdfsClass then st.classes.set s [] else st.classes).contains o then
              addToSet st.relations (if o = rdfsProperty then s else st.curProp) o
            else st.relations } := by
  have h1 : ¬ rdfsRange = rdfsLabel := by decide
  have h4 : ¬ rdfsRange = rdfsDomain := by decide
  have hcp : ¬ rdfsClass = rdfsProperty := by decide
  have hpc : ¬ rdfsProperty = rdfsClass := by decide
  by_cases hc : o = rdfsClass <;> by_cases hp : o = rdfsProperty <;>
    simp [step, stmtRange, stepClass, stepClassLabel, stepProperty, stepPropertyLabel,
      stepDomain, stepRange, TermsEqual, Term.asIRI, h1, h4, hc, hp, hcp, hpc] <;>
    split <;> rfl

theorem step_range (lang : String) (st : State) (s o : IRI)
    (hc : o ≠ rdfsClass) (hp : o ≠ rdfsProperty) :
    step lang st (stmtRange s o)
      = some (if st.classes.contains o then
          { st with relations := addToSet st.relations st.curProp o }
          else st) := by
  rw [step_range_gen]
  by_cases hk : st.classes.contains o = true <;> simp [hc, hp, hk]

/-! ## The loops of the model construction in closed form -/

theorem rangeLoop_eq (st : State) (cls lit : IRI) (objs : List IRI) (links : List Link) :
    rangeLoop st cls lit objs links
      = links ++ objs.map fun obj => st.mkLink (cls, lit, obj) := by
  induction objs generalizing links with
  | nil => simp [rangeLoop]
  | cons obj objs ih => simp [rangeLoop, ih, State.mkLink]

theorem propLoop_eq (prefLang : String) (st : State) (e : Enumeration) (cls : IRI)
    (lits : List IRI) (a : Acc) :
    propLoop prefLang st e cls lits a
      = ⟨a.lits ++ (lits.filter fun lit =>
            !st.hasRange lit && !decide (st.label lit = "")).map st.label,
          a.links ++ (lits.flatMap fun lit =>
            if st.hasRange lit then (e.rangeOrder cls lit).map fun obj => (cls, lit, obj)
            else []).map st.mkLink,
          a.log ++ (lits.filter fun lit =>
            !st.hasRange lit && decide (st.label lit = "")).map (diagnostic prefLang)⟩ := by
  induction lits generalizing a with
  | nil => simp [propLoop]
  | cons lit lits ih =>
    rw [propLoop, ih]
    by_cases h1 : st.relations.contains lit = true
    · simp [h1, State.hasRange, rangeLoop_eq, Function.comp_def]
    · by_cases h2 : st.label lit = "" <;> simp [h1, h2, State.hasRange]

theorem classLoop_eq (prefLang : String) (st : State) (e : Enumeration)
    (cs : List IRI) (o : Out) :
    classLoop prefLang st e cs o
      = ⟨⟨o.ont.Classes ++ cs.map (classRecord st e),
          if cs = [] then o.ont.Links
          else o.links ++ (cs.flatMap (linkVisitsOf st e)).map st.mkLink⟩,
          o.links ++ (cs.flatMap (linkVisitsOf st e)).map st.mkLink,
          o.log ++ (cs.flatMap fun cls =>
            (logVisitsOf st e cls).map fun lit => (cls, lit)).map
              fun v => diagnostic prefLang v.2⟩ := by
  induction cs generalizing o with
  | nil => simp [classLoop]
  | cons cls rest ih =>
    rw [classLoop, ih, propLoop_eq]
    by_cases hr : rest = []
    · subst hr
      simp [classRecord, attrVisitsOf, linkVisitsOf, logVisitsOf, Function.comp_def]
    · simp [hr, classRecord, attrVisitsOf, linkVisitsOf, logVisitsOf, Function.comp_def]

/-- The classes of the model: one record per visited class, in visiting order. -/
theorem build_classes (prefLang : String) (st : State) (e : Enumeration) :
    (build prefLang st e).ont.Classes = e.classOrder.map (classRecord st e) := by
  simp [build, classLoop_eq]

/-- The links of the model: one per link visit, in visiting order. -/
theorem build_links (prefLang : String) (st : State) (e : Enumeration) :
    (build prefLang st e).ont.Links = (linkVisits st e).map st.mkLink := by
  simp only [build, classLoop_eq, linkVisits]
  by_cases h : e.classOrder = [] <;> simp [h]

/-- The diagnostics: one per diagnostic visit, in visiting order. -/
theorem build_log (prefLang : String) (st : State) (e : Enumeration) :
    (build prefLang st e).log = (logVisits st e).map fun v => diagnostic prefLang v.2 := by
  simp [build, classLoop_eq, logVisits]

/-! ## The two scenarios -/

/-- The state the pass reaches on the first scenario. -/
theorem run_scenarioLink (lang : String) (c1 c2 p1 : IRI) (l1 l2 lp : String)
    (h12 : c1 ≠ c2) (h1p : c1 ≠ p1) (h2p : c2 ≠ p1)
    (hv1 : c1 ∉ vocabulary) (hv2 : c2 ∉ vocabulary) :
    run lang (scenarioLink lang c1 c2 p1 l1 l2 lp)
      = some ⟨[(c1, [(p1, true)]), (c2, [])], [(c1, l1), (c2, l2), (p1, lp)],
          [(p1, [(c2, true)])], c2, p1⟩ := by
  simp only [vocabulary, List.mem_cons, List.mem_singleton, not_or, List.not_mem_nil,
    or_false] at hv1 hv2
  have h21 : ¬ c2 = c1 := fun h => h12 h.symm
  have hp1 : ¬ p1 = c1 := fun h => h1p h.symm
  have hp2 : ¬ p1 = c2 := fun h => h2p h.symm
  simp only [run, scenarioLink, runFrom, step_isA_class, step_isA_property, step_label,
    step_domain _ _ _ _ hv1.1 hv1.2.2.1, step_range _ _ _ _ hv2.1 hv2.2.2.1,
    Option.some_bind, State.init]
  simp [GoMap.set, GoMap.get?, GoMap.contains, addToSet, h12, h1p, h2p, h21, hp1, hp2]

/-- C1: for every preferred language, pairwise distinct IRIs `c1`, `c2`, `p1`
outside the rdfs vocabulary and all label values, the extractor succeeds on the
first scenario, and under every enumeration order of the maps the model has
exactly one link, `(l1, l2, lp)`, its classes are the records `(l1, [])` and
`(l2, [])`, and every class record labelled `l1` has no attribute row. -/
theorem scenario_link_model (lang : String) (c1 c2 p1 : IRI) (l1 l2 lp : String)
    (h12 : c1 ≠ c2) (h1p : c1 ≠ p1) (h2p : c2 ≠ p1)
    (hv1 : c1 ∉ vocabulary) (hv2 : c2 ∉ vocabulary) :
    ∃ st, run lang (scenarioLink lang c1 c2 p1 l1 l2 lp) = some st ∧
      ∀ e : Enumeration, e.Valid st →
        (build lang st e).ont.Links = [⟨l1, l2, lp⟩] ∧
        (build lang st e).ont.Classes.Perm [⟨l1, []⟩, ⟨l2, []⟩] ∧
        (∃ c ∈ (build lang st e).ont.Classes, c.Label = l1) ∧
        ∀ c ∈ (build lang st e).ont.Classes, c.Label = l1 → c.Literals = [] := by
  refine ⟨_, run_scenarioLink lang c1 c2 p1 l1 l2 lp h12 h1p h2p hv1 hv2, ?_⟩
  intro e hval
  obtain ⟨hc, hp, hr⟩ := hval
  have h21 : ¬ c2 = c1 := fun h => h12 h.symm
  have hp1 : ¬ p1 = c1 := fun h => h1p h.symm
  have hp2 : ¬ p1 = c2 := fun h => h2p h.symm
  have hP1 : e.propOrder c1 = [p1] := by
    have := hp c1 (by simp [GoMap.keys])
    simpa [State.props, GoMap.get?, GoMap.keys] using this
  have hP2 : e.propOrder c2 = [] := by
    have := hp c2 (by simp [GoMap.keys])
    simpa [State.props, GoMap.get?, GoMap.keys, h12] using this
  have hR : e.rangeOrder c1 p1 = [c2] := by
    have := hr c1 (by simp [GoMap.keys]) p1 (by simp [State.props, GoMap.get?, GoMap.keys])
    simpa [State.rel, GoMap.get?, GoMap.keys] using this
  have hrec1 : classRecord ⟨[(c1, [(p1, true)]), (c2, [])], [(c1, l1), (c2, l2), (p1, lp)],
      [(p1, [(c2, true)])], c2, p1⟩ e c1 = ⟨l1, []⟩ := by
    simp [classRecord, attrVisitsOf, hP1, State.hasRange, GoMap.contains, GoMap.get?,
      State.label]
  have hrec2 : classRecord ⟨[(c1, [(p1, true)]), (c2, [])], [(c1, l1), (c2, l2), (p1, lp)],
      [(p1, [(c2, true)])], c2, p1⟩ e c2 = ⟨l2, []⟩ := by
    simp [classRecord, attrVisitsOf, hP2, State.label, GoMap.get?, h12]
  have hclasses : (build lang ⟨[(c1, [(p1, true)]), (c2, [])],
      [(c1, l1), (c2, l2), (p1, lp)], [(p1, [(c2, true)])], c2, p1⟩ e).ont.Classes.Perm
      [⟨l1, []⟩, ⟨l2, []⟩] := by
    rw [build_classes]
    have := hc.map (classRecord ⟨[(c1, [(p1, true)]), (c2, [])],
      [(c1, l1), (c2, l2), (p1, lp)], [(p1, [(c2, true)])], c2, p1⟩ e)
    simpa [GoMap.keys, hrec1, hrec2] using this
  refine ⟨?_, hclasses, ?_, ?_⟩
  · rw [build_links]
    have := (hc.flatMap_right (linkVisitsOf ⟨[(c1, [(p1, true)]), (c2, [])],
      [(c1, l1), (c2, l2), (p1, lp)], [(p1, [(c2, true)])], c2, p1⟩ e)).map
      (State.mkLink ⟨[(c1, [(p1, true)]), (c2, [])],
      [(c1, l1), (c2, l2), (p1, lp)], [(p1, [(c2, true)])], c2, p1⟩)
    simpa [linkVisits, linkVisitsOf, GoMap.keys, hP1, hP2, hR, State.hasRange,
      GoMap.contains, GoMap.get?, State.mkLink, State.label, h12, h1p, h2p, h21, hp1, hp2]
      using this
  · exact ⟨⟨l1, []⟩, hclasses.mem_iff.mpr (by simp), rfl⟩
  · intro c hcm _
    have := hclasses.mem_iff.mp hcm
    simp at this
    rcases this with h | h <;> simp [h]

/-- The first scenario with the labels "Person", "Car" and "owns". -/
theorem scenario_link_model_witness :
    ∃ st, run "no" (scenarioLink "no" ⟨"urn:C1"⟩ ⟨"urn:C2"⟩ ⟨"urn:P1"⟩
        "Person" "Car" "owns") = some st ∧
      ∀ e : Enumeration, e.Valid st →
        (build "no" st e).ont.Links = [⟨"Person", "Car", "owns"⟩] ∧
        (build "no" st e).ont.Classes.Perm [⟨"Person", []⟩, ⟨"Car", []⟩] ∧
        (∃ c ∈ (build "no" st e).ont.Classes, c.Label = "Person") ∧
        ∀ c ∈ (build "no" st e).ont.Classes, c.Label = "Person" → c.Literals = [] :=
  scenario_link_model "no" ⟨"urn:C1"⟩ ⟨"urn:C2"⟩ ⟨"urn:P1"⟩ "Person" "Car" "owns"
    (by decide) (by decide) (by decide) (by decide) (by decide)

/-- The state the pass reaches on the second scenario.  When the class is
`rdfs:Class` itself the domain statement also registers the property as a class. -/
theorem run_scenarioAttribute (lang : String) (c1 p2 : IRI) (l1 lp : String) (h : c1 ≠ p2) :
    ∃ st, run lang (scenarioAttribute lang c1 p2 l1 lp) = some st ∧
      st.classes = (if c1 = rdfsClass then [(c1, [(p2, true)]), (p2, [])]
        else [(c1, [(p2, true)])]) ∧
      st.iriLabels = [(c1, l1), (p2, lp)] ∧ st.relations = [] := by
  have h2 : ¬ p2 = c1 := fun e => h e.symm
  simp only [run, scenarioAttribute, runFrom, step_isA_class, step_isA_property, step_label,
    step_domain_gen, Option.some_bind, State.init]
  refine ⟨_, rfl, ?_, ?_, rfl⟩
  · by_cases hc : c1 = rdfsClass
    · subst hc
      simp [GoMap.set, GoMap.get?, GoMap.contains, addToSet, h, h2]
    · simp [GoMap.set, GoMap.get?, GoMap.contains, addToSet, h, h2, hc]
  · simp [GoMap.set, h, h2]

/-- C2: for every preferred language, distinct IRIs `c1`, `p2` and non-empty
label `lp`, the extractor succeeds on the second scenario, and under every
enumeration order the class loop visits `c1`, the record it appends for `c1`
is `(l1, [lp])`, and the model has no link. -/
theorem scenario_attribute_model (lang : String) (c1 p2 : IRI) (l1 lp : String)
    (h : c1 ≠ p2) (hlp : lp ≠ "") :
    ∃ st, run lang (scenarioAttribute lang c1 p2 l1 lp) = some st ∧
      ∀ e : Enumeration, e.Valid st →
        (build lang st e).ont.Classes = e.classOrder.map (classRecord st e) ∧
        c1 ∈ e.classOrder ∧ classRecord st e c1 = ⟨l1, [lp]⟩ ∧
        (⟨l1, [lp]⟩ : Class) ∈ (build lang st e).ont.Classes ∧
        (build lang st e).ont.Links = [] := by
  obtain ⟨st, hrun, hcl, hlab, hrel⟩ := run_scenarioAttribute lang c1 p2 l1 lp h
  refine ⟨st, hrun, ?_⟩
  intro e hval
  obtain ⟨hc, hp, -⟩ := hval
  have h2 : ¬ p2 = c1 := fun e => h e.symm
  have hkey : c1 ∈ st.classes.keys := by
    rw [hcl]; split <;> simp [GoMap.keys]
  have hmem : c1 ∈ e.classOrder := hc.mem_iff.mpr hkey
  have hprops : (st.props c1).keys = [p2] := by
    rw [State.props, hcl]; split <;> simp [GoMap.get?, GoMap.keys]
  have hP1 : e.propOrder c1 = [p2] := by
    have := hp c1 hkey
    rw [hprops] at this
    simpa using this
  have hno : ∀ lit, st.hasRange lit = false := by
    intro lit; simp [State.hasRange, hrel, GoMap.contains, GoMap.get?]
  have hrec : classRecord st e c1 = ⟨l1, [lp]⟩ := by
    simp [classRecord, attrVisitsOf, hP1, hno, State.label, hlab, GoMap.get?, h, hlp]
  refine ⟨build_classes lang st e, hmem, hrec, ?_, ?_⟩
  · rw [build_classes, ← hrec]
    exact List.mem_map_of_mem _ hmem
  · rw [build_links]
    simp [linkVisits, linkVisitsOf, hno]

/-- The second scenario with the labels "Person" and "age". -/
theorem scenario_attribute_model_witness :
    ∃ st, run "no" (scenarioAttribute "no" ⟨"urn:C1"⟩ ⟨"urn:P2"⟩ "Person" "age") = some st ∧
      ∀ e : Enumeration, e.Valid st →
        (build "no" st e).ont.Classes = e.classOrder.map (classRecord st e) ∧
        (⟨"urn:C1"⟩ : IRI) ∈ e.classOrder ∧
        classRecord st e ⟨"urn:C1"⟩ = ⟨"Person", ["age"]⟩ ∧
        (⟨"Person", ["age"]⟩ : Class) ∈ (build "no" st e).ont.Classes ∧
        (build "no" st e).ont.Links = [] :=
  scenario_attribute_model "no" ⟨"urn:C1"⟩ ⟨"urn:P2"⟩ "Person" "age" (by decide) (by decide)

/-! ## Every reached state is well formed -/

theorem wf_init : State.init.WF := by
  simp [State.WF, State.init, GoMap.keys, State.props, State.rel, State.hasRange,
    GoMap.get?, GoMap.contains]

theorem wf_of_maps_eq {st st1 : State} (hc : st1.classes = st.classes)
    (hr : st1.relations = st.relations) (h : st.WF) : st1.WF := by
  simpa [State.WF, State.props, State.rel, State.hasRange, hc, hr] using h

theorem wf_setClass {st : State} (s : IRI) (h : st.WF) :
    State.WF { st with classes := st.classes.set s [], curSubj := s } := by
  obtain ⟨h1, h2, h3, h4, h5, h6⟩ := h
  refine ⟨GoMap.nodup_keys_set _ _ _ h1, ?_, h3, h4, h5, ?_⟩
  · intro c
    simp only [State.props, GoMap.get?_set]
    by_cases hsc : s = c
    · simp [hsc, GoMap.keys]
    · simpa [hsc] using h2 c
  · intro p o ho
    exact (GoMap.mem_keys_set _ _ _ _).mpr (Or.inr (h6 p o ho))

theorem wf_addDomain {st : State} (o s : IRI) (h : st.WF) :
    State.WF { st with classes := addToSet st.classes o s } := by
  obtain ⟨h1, h2, h3, h4, h5, h6⟩ := h
  refine ⟨nodup_keys_addToSet _ _ _ h1, ?_, h3, h4, h5, ?_⟩
  · intro c
    simp only [State.props, get?_addToSet]
    by_cases hoc : o = c
    · simpa [hoc] using GoMap.nodup_keys_set _ s true (h2 c)
    · simpa [hoc] using h2 c
  · intro p x hx
    exact (mem_keys_addToSet _ _ _ _).mpr (Or.inr (h6 p x hx))

theorem wf_addRange {st : State} (obj : IRI) (hk : obj ∈ st.classes.keys) (h : st.WF) :
    State.WF { st with relations := addToSet st.relations st.curProp obj } := by
  obtain ⟨h1, h2, h3, h4, h5, h6⟩ := h
  refine ⟨h1, h2, nodup_keys_addToSet _ _ _ h3, ?_, ?_, ?_⟩
  · intro p
    simp only [State.rel, get?_addToSet]
    by_cases hp : st.curProp = p
    · simpa [hp] using GoMap.nodup_keys_set _ obj true (h4 p)
    · simpa [hp] using h4 p
  · intro p hp
    simp only [State.rel, State.hasRange, GoMap.contains, get?_addToSet] at hp ⊢
    by_cases hcp : st.curProp = p
    · simp only [hcp, if_true, Option.getD_some]
      intro hnil
      have := (GoMap.mem_keys_set ((st.relations.get? p).getD []) obj obj true).mpr (Or.inl rfl)
      rw [hnil] at this
      simp at this
    · simp only [hcp, if_false] at hp ⊢
      exact h5 p hp
  · intro p x hx
    simp only [State.rel, get?_addToSet] at hx
    by_cases hcp : st.curProp = p
    · simp only [hcp, if_true, Option.getD_some] at hx
      rcases (GoMap.mem_keys_set _ _ _ _).mp hx with hx | hx
      · subst hx; exact hk
      · exact h6 p x hx
    · simp only [hcp, if_false] at hx
      exact h6 p x hx

theorem wf_stepClass {st st1 : State} {tr : Triple} (h : st.WF)
    (hs : stepClass st tr = some st1) : st1.WF := by
  unfold stepClass at hs
  split at hs
  · cases hsub : tr.Subj.asIRI with
    | none => simp [hsub] at hs
    | some s =>
      simp only [hsub, Option.some_bind, Option.some.injEq] at hs
      subst hs; exact wf_setClass s h
  · simp only [Option.some.injEq] at hs; subst hs; exact h

theorem wf_stepDomain {st st1 : State} {tr : Triple} (h : st.WF)
    (hs : stepDomain st tr = some st1) : st1.WF := by
  unfold stepDomain at hs
  split at hs
  · cases hobj : tr.Obj.asIRI with
    | none => simp [hobj] at hs
    | some o =>
      cases hsub : tr.Subj.asIRI with
      | none => simp [hobj, hsub] at hs
      | some s =>
        simp only [hobj, hsub, Option.some_bind, Option.some.injEq] at hs
        subst hs; exact wf_addDomain o s h
  · simp only [Option.some.injEq] at hs; subst hs; exact h

theorem wf_stepRange {st st1 : State} {tr : Triple} (h : st.WF)
    (hs : stepRange st tr = some st1) : st1.WF := by
  unfold stepRange at hs
  split at hs
  · cases hobj : tr.Obj.asIRI with
    | none => simp [hobj] at hs
    | some o =>
      simp only [hobj, Option.some_bind] at hs
      split at hs
      · rename_i hk
        simp only [Option.some.injEq] at hs
        subst hs
        exact wf_addRange o ((GoMap.contains_iff_mem_keys _ _).mp hk) h
      · simp only [Option.some.injEq] at hs; subst hs; exact h
  · simp only [Option.some.injEq] at hs; subst hs; exact h

/-- The label steps and the property step leave the class map, the recorded
ranges and the class cursor alone. -/
theorem stepClassLabel_maps {lang : String} {st st1 : State} {tr : Triple}
    (hs : stepClassLabel lang st tr = some st1) :
    st1.classes = st.classes ∧ st1.relations = st.relations ∧
      st1.curSubj = st.curSubj ∧ st1.curProp = st.curProp := by
  unfold stepClassLabel at hs
  split at hs
  · cases hobj : tr.Obj.asLiteral with
    | none => simp [hobj] at hs
    | some l =>
      simp only [hobj, Option.some_bind] at hs
      split at hs <;> simp only [Option.some.injEq] at hs <;> subst hs <;> simp
  · simp only [Option.some.injEq] at hs; subst hs; simp

theorem stepPropertyLabel_maps {lang : String} {st st1 : State} {tr : Triple}
    (hs : stepPropertyLabel lang st tr = some st1) :
    st1.classes = st.classes ∧ st1.relations = st.relations ∧
      st1.curSubj = st.curSubj ∧ st1.curProp = st.curProp := by
  unfold stepPropertyLabel at hs
  split at hs
  · cases hobj : tr.Obj.asLiteral with
    | none => simp [hobj] at hs
    | some l =>
      simp only [hobj, Option.some_bind] at hs
      split at hs <;> simp only [Option.some.injEq] at hs <;> subst hs <;> simp
  · simp only [Option.some.injEq] at hs; subst hs; simp

theorem stepProperty_maps {st st1 : State} {tr : Triple}
    (hs : stepProperty st tr = some st1) :
    st1.classes = st.classes ∧ st1.relations = st.relations ∧
      st1.iriLabels = st.iriLabels ∧ st1.curSubj = st.curSubj := by
  unfold stepProperty at hs
  split at hs
  · cases hsub : tr.Subj.asIRI with
    | none => simp [hsub] at hs
    | some s =>
      simp only [hsub, Option.some_bind, Option.some.injEq] at hs
      subst hs; simp
  · simp only [Option.some.injEq] at hs; subst hs; simp

/-- The six parts of a successful step, one after the other. -/
theorem step_parts {lang : String} {st st1 : State} {tr : Triple}
    (hs : step lang st tr = some st1) :
    ∃ s1 s2 s3 s4 s5, stepClass st tr = some s1 ∧ stepClassLabel lang s1 tr = some s2 ∧
      stepProperty s2 tr = some s3 ∧ stepPropertyLabel lang s3 tr = some s4 ∧
      stepDomain s4 tr = some s5 ∧ stepRange s5 tr = some st1 := by
  simp only [step, Option.bind_eq_some] at hs
  obtain ⟨s1, h1, s2, h2, s3, h3, s4, h4, s5, h5, h6⟩ := hs
  exact ⟨s1, s2, s3, s4, s5, h1, h2, h3, h4, h5, h6⟩

theorem wf_step {lang : String} {st st1 : State} {tr : Triple} (h : st.WF)
    (hs : step lang st tr = some st1) : st1.WF := by
  obtain ⟨s1, s2, s3, s4, s5, h1, h2, h3, h4, h5, h6⟩ := step_parts hs
  have w1 := wf_stepClass h h1
  have w2 := wf_of_maps_eq (stepClassLabel_maps h2).1 (stepClassLabel_maps h2).2.1 w1
  have w3 := wf_of_maps_eq (stepProperty_maps h3).1 (stepProperty_maps h3).2.1 w2
  have w4 := wf_of_maps_eq (stepPropertyLabel_maps h4).1 (stepPropertyLabel_maps h4).2.1 w3
  exact wf_stepRange (wf_stepDomain w4 h5) h6

theorem wf_runFrom {lang : String} (trs : List Triple) {st st1 : State} (h : st.WF)
    (hs : runFrom lang st trs = some st1) : st1.WF := by
  induction trs generalizing st with
  | nil => simp only [runFrom, Option.some.injEq] at hs; subst hs; exact h
  | cons tr trs ih =>
    simp only [runFrom, Option.bind_eq_some] at hs
    obtain ⟨s1, h1, h2⟩ := hs
    exact ih (wf_step h h1) h2

theorem wf_run {lang : String} {trs : List Triple} {st : State}
    (hs : run lang trs = some st) : st.WF :=
  wf_runFrom trs wf_init hs

/-! ## Counting the links of a property -/

theorem sum_map_ite_eq_count (l : List IRI) (p : IRI) (f : IRI → Nat) :
    (l.map fun x => if x = p then f x else 0).sum = l.count p * f p := by
  induction l with
  | nil => simp
  | cons x l ih =>
    by_cases h : x = p
    · subst h; simp [ih, Nat.add_mul, Nat.add_comm]
    · have h2 : ¬ (x == p) = true := by simpa using h
      simp [ih, h, List.count_cons, h2]

theorem sum_map_ite_eq_filter (l : List IRI) (q : IRI → Bool) (n : Nat) :
    (l.map fun x => if q x = true then n else 0).sum = (l.filter q).length * n := by
  induction l with
  | nil => simp
  | cons x l ih =>
    by_cases h : q x = true
    · simp [ih, h, Nat.add_mul, Nat.add_comm]
    · simp [ih, h]

/-- The link visits made for `p` while one class is visited: as many as the
visiting order of the class holds `p`, times the length of the range order. -/
theorem countP_linkVisitsOf (st : State) (e : Enumeration) (cls p : IRI)
    (hp : st.hasRange p = true) :
    (linkVisitsOf st e cls).countP (fun v => decide (v.2.1 = p))
      = (e.propOrder cls).count p * (e.rangeOrder cls p).length := by
  rw [linkVisitsOf, List.countP_flatMap,
    ← sum_map_ite_eq_count (e.propOrder cls) p (fun x => (e.rangeOrder cls x).length)]
  congr 1
  apply List.map_congr_left
  intro lit _
  by_cases h : lit = p
  · subst h
    simp [hp, List.countP_eq_length_filter, List.filter_map, Function.comp_def]
  · by_cases h2 : st.hasRange lit = true
    · simp [h, h2, List.countP_eq_length_filter, List.filter_map, Function.comp_def]
    · simp [h, h2]

theorem hasRange_of_rangeClasses_ne_nil {st : State} {p : IRI}
    (h : rangeClasses st p ≠ []) : st.hasRange p = true := by
  unfold rangeClasses State.rel at h
  unfold State.hasRange GoMap.contains
  cases hg : st.relations.get? p with
  | none => simp [hg, GoMap.keys] at h
  | some r => rfl

/-- The link visits made for `p` in the whole construction. -/
theorem countP_linkVisits {st : State} {e : Enumeration} {p : IRI} (hwf : st.WF)
    (hval : e.Valid st) (hp : st.hasRange p = true) :
    (linkVisits st e).countP (fun v => decide (v.2.1 = p))
      = (domainClasses st p).length * (rangeClasses st p).length := by
  obtain ⟨hc, hpo, hro⟩ := hval
  have hterm : ∀ c ∈ e.classOrder,
      ((List.countP fun v => decide (v.2.1 = p)) ∘ linkVisitsOf st e) c
        = if decide (p ∈ (st.props c).keys) = true then (rangeClasses st p).length else 0 := by
    intro c hcm
    have hck : c ∈ st.classes.keys := hc.mem_iff.mp hcm
    simp only [Function.comp_apply, countP_linkVisitsOf st e c p hp]
    rw [(hpo c hck).count_eq, List.count_eq_of_nodup (hwf.2.1 c)]
    by_cases hm : p ∈ (st.props c).keys
    · simp [hm, rangeClasses, (hro c hck p hm).length_eq]
    · simp [hm]
  rw [linkVisits, List.countP_flatMap, List.map_congr_left hterm,
    ((hc.map _).sum_eq), sum_map_ite_eq_filter, domainClasses]

/-- C3: for every statement sequence on which the pass succeeds, every
property `p` whose recorded range set is non-empty and every enumeration order
of the maps: no class gets an attribute row from `p`, and the links of the
model are the images of the link visits, of which exactly `|D(p)| * |R(p)|`
are made for `p`, where `D(p)` is the set of classes whose property set
contains `p` and `R(p)` the recorded range set of `p`. -/
theorem links_of_ranged_property (lang : String) (trs : List Triple) (st : State) (p : IRI)
    (e : Enumeration) (hrun : run lang trs = some st) (hR : rangeClasses st p ≠ [])
    (hval : e.Valid st) :
    (∀ c, p ∉ attrVisitsOf st e c) ∧
    (build lang st e).ont.Classes
      = e.classOrder.map (fun c => ⟨st.label c, (attrVisitsOf st e c).map st.label⟩) ∧
    (build lang st e).ont.Links = (linkVisits st e).map st.mkLink ∧
    ((linkVisits st e).filter fun v => decide (v.2.1 = p)).length
      = (domainClasses st p).toFinset.card * (rangeClasses st p).toFinset.card := by
  have hwf := wf_run hrun
  have hp := hasRange_of_rangeClasses_ne_nil hR
  refine ⟨?_, ?_, build_links lang st e, ?_⟩
  · intro c hc
    simp [attrVisitsOf, hp] at hc
  · rw [build_classes]; rfl
  · have hD : (domainClasses st p).Nodup := hwf.1.filter _
    have hRn : (rangeClasses st p).Nodup := hwf.2.2.2.1 p
    rw [← List.countP_eq_length_filter, countP_linkVisits hwf hval hp,
      List.toFinset_card_of_nodup hD, List.toFinset_card_of_nodup hRn]

/-- A property with two domain classes and two range classes gets four links. -/
theorem links_of_ranged_property_witness :
    (∀ c, (⟨"urn:P"⟩ : IRI) ∉ attrVisitsOf crossState crossState.insertionOrder c) ∧
    (build "no" crossState crossState.insertionOrder).ont.Classes
      = crossState.insertionOrder.classOrder.map (fun c =>
          ⟨crossState.label c,
            (attrVisitsOf crossState crossState.insertionOrder c).map crossState.label⟩) ∧
    (build "no" crossState crossState.insertionOrder).ont.Links
      = (linkVisits crossState crossState.insertionOrder).map crossState.mkLink ∧
    ((linkVisits crossState crossState.insertionOrder).filter
        fun v => decide (v.2.1 = ⟨"urn:P"⟩)).length
      = (domainClasses crossState ⟨"urn:P"⟩).toFinset.card
          * (rangeClasses crossState ⟨"urn:P"⟩).toFinset.card :=
  links_of_ranged_property "no" crossTriples crossState ⟨"urn:P"⟩ crossState.insertionOrder
    (by decide) (by decide) (by decide)

/-! ## A domain statement that precedes the class declaration -/

/-- C4 (the code at the failing input): the property group, domain statement
included, comes first and the class is declared after it.  The domain
statement creates the bucket of the class and attaches the property (the state
after three statements), the later declaration overwrites the bucket with an
empty one, and under every enumeration order the record of the class has no
attribute row although the property has a label, no range, and produces no
link.  With the class group first the row is there. -/
theorem domain_before_declaration_loses_row :
    run "no" (domainFirstTriples.take 3)
      = some ⟨[(⟨"urn:C"⟩, [(⟨"urn:P"⟩, true)])], [(⟨"urn:P"⟩, "age")], [],
          ⟨""⟩, ⟨"urn:P"⟩⟩ ∧
    run "no" domainFirstTriples
      = some ⟨[(⟨"urn:C"⟩, [])], [(⟨"urn:P"⟩, "age"), (⟨"urn:C"⟩, "Person")], [],
          ⟨"urn:C"⟩, ⟨"urn:P"⟩⟩ ∧
    (∀ e : Enumeration,
      e.Valid ⟨[(⟨"urn:C"⟩, [])], [(⟨"urn:P"⟩, "age"), (⟨"urn:C"⟩, "Person")], [],
          ⟨"urn:C"⟩, ⟨"urn:P"⟩⟩ →
      (build "no" ⟨[(⟨"urn:C"⟩, [])], [(⟨"urn:P"⟩, "age"), (⟨"urn:C"⟩, "Person")], [],
          ⟨"urn:C"⟩, ⟨"urn:P"⟩⟩ e).ont = ⟨[⟨"Person", []⟩], []⟩) ∧
    (run "no" classFirstTriples).map
        (fun st => (build "no" st st.insertionOrder).ont)
      = some ⟨[⟨"Person", ["age"]⟩], []⟩ := by
  refine ⟨by decide, by decide, ?_, by decide⟩
  intro e hval
  obtain ⟨hc, hp, -⟩ := hval
  have hC : e.classOrder = [⟨"urn:C"⟩] := by simpa [GoMap.keys] using hc
  have hP : e.propOrder ⟨"urn:C"⟩ = [] := by
    have := hp ⟨"urn:C"⟩ (by simp [GoMap.keys])
    simpa [State.props, GoMap.get?, GoMap.keys] using this
  have h1 := build_classes "no" ⟨[(⟨"urn:C"⟩, [])],
    [(⟨"urn:P"⟩, "age"), (⟨"urn:C"⟩, "Person")], [], ⟨"urn:C"⟩, ⟨"urn:P"⟩⟩ e
  have h2 := build_links "no" ⟨[(⟨"urn:C"⟩, [])],
    [(⟨"urn:P"⟩, "age"), (⟨"urn:C"⟩, "Person")], [], ⟨"urn:C"⟩, ⟨"urn:P"⟩⟩ e
  have hne : ¬ (⟨"urn:P"⟩ : IRI) = ⟨"urn:C"⟩ := by decide
  simp only [hC, List.map_cons, List.map_nil, classRecord, attrVisitsOf, hP, linkVisits,
    linkVisitsOf, List.filter_nil, List.flatMap_nil, List.flatMap_cons, List.append_nil,
    State.label, GoMap.get?, hne, if_false, if_true, Option.getD_some] at h1 h2
  generalize build "no" _ e = out at h1 h2
  obtain ⟨⟨cs, ls⟩, _, _⟩ := out
  simp only at h1 h2
  simp [h1, h2]

/-! ## The key set of the class map -/

theorem stepClass_keys {st st1 : State} {tr : Triple} (x : IRI)
    (hs : stepClass st tr = some st1) :
    x ∈ st1.classes.keys ↔
      x ∈ st.classes.keys ∨ (tr.Obj = .iri rdfsClass ∧ tr.Subj = .iri x) := by
  unfold stepClass at hs
  split at hs
  · rename_i hobj
    have hobj1 : tr.Obj = .iri rdfsClass := by simpa [TermsEqual] using hobj
    cases hsub : tr.Subj with
    | iri s =>
      simp only [hsub, Term.asIRI, Option.some_bind, Option.some.injEq] at hs
      subst hs
      simp only [GoMap.mem_keys_set, hobj1, true_and, Term.iri.injEq]
      constructor
      · rintro (h | h)
        · exact Or.inr h.symm
        · exact Or.inl h
      · rintro (h | h)
        · exact Or.inr h
        · exact Or.inl h.symm
    | blank b => simp [hsub, Term.asIRI] at hs
    | literal l => simp [hsub, Term.asIRI] at hs
  · rename_i hobj
    have hobj1 : ¬ tr.Obj = .iri rdfsClass := by simpa [TermsEqual] using hobj
    simp only [Option.some.injEq] at hs
    subst hs
    simp [hobj1]

theorem stepDomain_keys {st st1 : State} {tr : Triple} (x : IRI)
    (hs : stepDomain st tr = some st1) :
    x ∈ st1.classes.keys ↔
      x ∈ st.classes.keys ∨ (tr.Pred = .iri rdfsDomain ∧ tr.Obj = .iri x) := by
  unfold stepDomain at hs
  split at hs
  · rename_i hpred
    have hpred1 : tr.Pred = .iri rdfsDomain := by simpa [TermsEqual] using hpred
    cases hobj : tr.Obj with
    | iri o =>
      cases hsub : tr.Subj with
      | iri s =>
        simp only [hobj, hsub, Term.asIRI, Option.some_bind, Option.some.injEq] at hs
        subst hs
        simp only [mem_keys_addToSet, hpred1, true_and, Term.iri.injEq]
        constructor
        · rintro (h | h)
          · exact Or.inr h.symm
          · exact Or.inl h
        · rintro (h | h)
          · exact Or.inr h
          · exact Or.inl h.symm
      | blank b => simp [hobj, hsub, Term.asIRI] at hs
      | literal l => simp [hobj, hsub, Term.asIRI] at hs
    | blank b => simp [hobj, Term.asIRI] at hs
    | literal l => simp [hobj, Term.asIRI] at hs
  · rename_i hpred
    have hpred1 : ¬ tr.Pred = .iri rdfsDomain := by simpa [TermsEqual] using hpred
    simp only [Option.some.injEq] at hs
    subst hs
    simp [hpred1]

/-- The range part leaves everything but the recorded ranges alone. -/
theorem stepRange_maps {st st1 : State} {tr : Triple} (hs : stepRange st tr = some st1) :
    st1.classes = st.classes ∧ st1.iriLabels = st.iriLabels ∧
      st1.curSubj = st.curSubj ∧ st1.curProp = st.curProp := by
  unfold stepRange at hs
  split at hs
  · cases hobj : tr.Obj.asIRI with
    | none => simp [hobj] at hs
    | some o =>
      simp only [hobj, Option.some_bind] at hs
      split at hs <;> simp only [Option.some.injEq] at hs <;> subst hs <;> simp
  · simp only [Option.some.injEq] at hs; subst hs; simp

theorem step_keys {lang : String} {st st1 : State} {tr : Triple} (x : IRI)
    (hs : step lang st tr = some st1) :
    x ∈ st1.classes.keys ↔
      x ∈ st.classes.keys ∨ (tr.Obj = .iri rdfsClass ∧ tr.Subj = .iri x) ∨
        (tr.Pred = .iri rdfsDomain ∧ tr.Obj = .iri x) := by
  obtain ⟨s1, s2, s3, s4, s5, h1, h2, h3, h4, h5, h6⟩ := step_parts hs
  rw [(stepRange_maps h6).1, stepDomain_keys x h5, (stepPropertyLabel_maps h4).1,
    (stepProperty_maps h3).1, (stepClassLabel_maps h2).1, stepClass_keys x h1, or_assoc]

theorem exists_mem_cons_iff (q : Triple → Prop) (a : Triple) (l : List Triple) :
    (∃ tr ∈ a :: l, q tr) ↔ q a ∨ ∃ tr ∈ l, q tr := by
  simp

theorem runFrom_keys {lang : String} (trs : List Triple) {st st1 : State} (x : IRI)
    (hs : runFrom lang st trs = some st1) :
    x ∈ st1.classes.keys ↔
      x ∈ st.classes.keys ∨ (∃ tr ∈ trs, tr.Obj = .iri rdfsClass ∧ tr.Subj = .iri x) ∨
        (∃ tr ∈ trs, tr.Pred = .iri rdfsDomain ∧ tr.Obj = .iri x) := by
  induction trs generalizing st with
  | nil => simp only [runFrom, Option.some.injEq] at hs; subst hs; simp
  | cons tr trs ih =>
    simp only [runFrom, Option.bind_eq_some] at hs
    obtain ⟨s1, h1, h2⟩ := hs
    rw [ih h2, step_keys x h1, exists_mem_cons_iff, exists_mem_cons_iff]
    generalize (∃ tr ∈ trs, tr.Obj = Term.iri rdfsClass ∧ tr.Subj = Term.iri x) = E1
    generalize (∃ tr ∈ trs, tr.Pred = Term.iri rdfsDomain ∧ tr.Obj = Term.iri x) = E2
    tauto

/-- C5 (as stated, refuted): on a sequence of two contiguous groups the
resource `urn:D`, named by a domain statement only, is a key of the class map
without belonging to the set the claim describes, and `urn:X`, the object of
a range statement of a property whose domain is a known class, belongs to
that set without being a key. -/
theorem class_set_counterexample :
    ∃ st, run "no" undeclaredTriples = some st ∧
      ((⟨"urn:D"⟩ : IRI) ∈ st.classes.keys ∧
        specClassSet undeclaredTriples st.classes.keys ⟨"urn:D"⟩ = false) ∧
      ((⟨"urn:X"⟩ : IRI) ∉ st.classes.keys ∧
        specClassSet undeclaredTriples st.classes.keys ⟨"urn:X"⟩ = true) :=
  ⟨undeclaredState, by decide, by decide, by decide⟩

/-- C5 (amended): for every statement sequence on which the pass succeeds,
the keys of the class map are exactly the subjects of the statements whose
object is `rdfs:Class`, together with the objects of the domain statements. -/
theorem class_keys_iff (lang : String) (trs : List Triple) (st : State) (x : IRI)
    (hrun : run lang trs = some st) :
    x ∈ st.classes.keys ↔
      (∃ tr ∈ trs, tr.Obj = .iri rdfsClass ∧ tr.Subj = .iri x) ∨
        (∃ tr ∈ trs, tr.Pred = .iri rdfsDomain ∧ tr.Obj = .iri x) := by
  have h := runFrom_keys trs x hrun
  simpa [State.init, GoMap.keys] using h

/-- The keys of the class map on the sequence with an undeclared domain class. -/
theorem class_keys_iff_witness :
    (⟨"urn:D"⟩ : IRI) ∈ undeclaredState.classes.keys ↔
      (∃ tr ∈ undeclaredTriples, tr.Obj = .iri rdfsClass ∧ tr.Subj = .iri ⟨"urn:D"⟩) ∨
        (∃ tr ∈ undeclaredTriples, tr.Pred = .iri rdfsDomain ∧ tr.Obj = .iri ⟨"urn:D"⟩) :=
  class_keys_iff "no" undeclaredTriples undeclaredState ⟨"urn:D"⟩ (by decide)

/-! ## Where a label comes from -/

theorem label_set (st : State) (labels : GoMap IRI String) (k x : IRI) (v : String) :
    State.label { st with iriLabels := labels.set k v } x
      = if k = x then v else State.label { st with iriLabels := labels } x := by
  by_cases h : k = x <;> simp [State.label, GoMap.get?_set, h]

theorem stepClassLabel_label {lang : String} {st st1 : State} {tr : Triple} (x : IRI)
    (hs : stepClassLabel lang st tr = some st1) :
    st1.label x = st.label x ∨ IsLabelOf lang x (st1.label x) tr := by
  unfold stepClassLabel at hs
  split at hs
  · rename_i hcond
    simp only [TermsEqual, Bool.and_eq_true, decide_eq_true_eq] at hcond
    cases hobj : tr.Obj with
    | literal l =>
      simp only [hobj, Term.asLiteral, Option.some_bind] at hs
      split at hs
      · rename_i hl
        simp only [Option.some.injEq] at hs
        subst hs
        rw [label_set]
        by_cases hx : st.curSubj = x
        · right
          simp only [hx, if_true]
          exact ⟨by rw [hcond.1, hx], hcond.2, l, hobj, hl, rfl⟩
        · left; simp [hx]
      · simp only [Option.some.injEq] at hs; subst hs; exact Or.inl rfl
    | iri i => simp [hobj, Term.asLiteral] at hs
    | blank b => simp [hobj, Term.asLiteral] at hs
  · simp only [Option.some.injEq] at hs; subst hs; exact Or.inl rfl

theorem stepPropertyLabel_label {lang : String} {st st1 : State} {tr : Triple} (x : IRI)
    (hs : stepPropertyLabel lang st tr = some st1) :
    st1.label x = st.label x ∨ IsLabelOf lang x (st1.label x) tr := by
  unfold stepPropertyLabel at hs
  split at hs
  · rename_i hcond
    simp only [TermsEqual, Bool.and_eq_true, decide_eq_true_eq] at hcond
    cases hobj : tr.Obj with
    | literal l =>
      simp only [hobj, Term.asLiteral, Option.some_bind] at hs
      split at hs
      · rename_i hl
        simp only [Option.some.injEq] at hs
        subst hs
        rw [label_set]
        by_cases hx : st.curProp = x
        · right
          simp only [hx, if_true]
          exact ⟨by rw [hcond.1, hx], hcond.2, l, hobj, hl, rfl⟩
        · left; simp [hx]
      · simp only [Option.some.injEq] at hs; subst hs; exact Or.inl rfl
    | iri i => simp [hobj, Term.asLiteral] at hs
    | blank b => simp [hobj, Term.asLiteral] at hs
  · simp only [Option.some.injEq] at hs; subst hs; exact Or.inl rfl

theorem stepClass_labels {st st1 : State} {tr : Triple} (hs : stepClass st tr = some st1) :
    st1.iriLabels = st.iriLabels ∧ st1.relations = st.relations ∧
      st1.curProp = st.curProp := by
  unfold stepClass at hs
  split at hs
  · cases hsub : tr.Subj.asIRI with
    | none => simp [hsub] at hs
    | some s =>
      simp only [hsub, Option.some_bind, Option.some.injEq] at hs
      subst hs; simp
  · simp only [Option.some.injEq] at hs; subst hs; simp

theorem stepDomain_labels {st st1 : State} {tr : Triple} (hs : stepDomain st tr = some st1) :
    st1.iriLabels = st.iriLabels ∧ st1.relations = st.relations ∧
      st1.curSubj = st.curSubj ∧ st1.curProp = st.curProp := by
  unfold stepDomain at hs
  split at hs
  · cases hobj : tr.Obj.asIRI with
    | none => simp [hobj] at hs
    | some o =>
      cases hsub : tr.Subj.asIRI with
      | none => simp [hobj, hsub] at hs
      | some s =>
        simp only [hobj, hsub, Option.some_bind, Option.some.injEq] at hs
        subst hs; simp
  · simp only [Option.some.injEq] at hs; subst hs; simp

theorem label_congr {st st1 : State} (h : st1.iriLabels = st.iriLabels) (x : IRI) :
    st1.label x = st.label x := by
  simp [State.label, h]

/-- A step changes the label of `x` only by a label statement whose subject
is `x` and whose language is the preferred one, and then to its value. -/
theorem step_label_origin {lang : String} {st st1 : State} {tr : Triple} (x : IRI)
    (hs : step lang st tr = some st1) :
    st1.label x = st.label x ∨ IsLabelOf lang x (st1.label x) tr := by
  obtain ⟨s1, s2, s3, s4, s5, h1, h2, h3, h4, h5, h6⟩ := step_parts hs
  have e1 := label_congr (stepClass_labels h1).1 x
  have e3 := label_congr (stepProperty_maps h3).2.2.1 x
  have e5 := label_congr (stepDomain_labels h5).1 x
  have e6 := label_congr (stepRange_maps h6).2.1 x
  have e64 : st1.label x = s4.label x := by rw [e6, e5]
  rw [e64]
  rcases stepPropertyLabel_label x h4 with h | h
  · rw [h, e3]
    rcases stepClassLabel_label x h2 with h' | h'
    · left; rw [h', e1]
    · right; exact h'
  · right; exact h

theorem runFrom_label_origin {lang : String} (trs : List Triple) {st st1 : State} (x : IRI)
    (hs : runFrom lang st trs = some st1) :
    st1.label x = st.label x ∨ ∃ tr ∈ trs, IsLabelOf lang x (st1.label x) tr := by
  induction trs generalizing st with
  | nil => simp only [runFrom, Option.some.injEq] at hs; subst hs; exact Or.inl rfl
  | cons tr trs ih =>
    simp only [runFrom, Option.bind_eq_some] at hs
    obtain ⟨s1, h1, h2⟩ := hs
    rcases ih h2 with h | ⟨tr1, hm, h⟩
    · rcases step_label_origin x h1 with h' | h'
      · left; rw [h, h']
      · right; exact ⟨tr, List.mem_cons_self _ _, by rw [h]; exact h'⟩
    · right; exact ⟨tr1, List.mem_cons_of_mem _ hm, h⟩

/-- After the pass a resource has either no label or the value of one of its
own label statements in the preferred language. -/
theorem run_label_origin {lang : String} {trs : List Triple} {st : State} (x : IRI)
    (hs : run lang trs = some st) :
    st.label x = "" ∨ ∃ tr ∈ trs, IsLabelOf lang x (st.label x) tr := by
  rcases runFrom_label_origin trs x hs with h | h
  · left; rw [h]; rfl
  · right; exact h

/-- What a diagnostic visit is made for: a property attached to the visited
class that has no recorded range and an empty label. -/
theorem mem_logVisits {st : State} {e : Enumeration} (hval : e.Valid st) {v : IRI × IRI}
    (hv : v ∈ logVisits st e) :
    v.1 ∈ st.classes.keys ∧ v.2 ∈ (st.props v.1).keys ∧ st.hasRange v.2 = false ∧
      st.label v.2 = "" := by
  simp only [logVisits, logVisitsOf, List.mem_flatMap, List.mem_map, List.mem_filter,
    Bool.and_eq_true, Bool.not_eq_true', decide_eq_true_eq] at hv
  obtain ⟨c, hc, lit, ⟨hlit, hr, hl⟩, rfl⟩ := hv
  have hck := hval.1.mem_iff.mp hc
  exact ⟨hck, (hval.2.1 c hck).mem_iff.mp hlit, hr, hl⟩

/-! ## A class without a label in the preferred language -/

/-- C6 (as stated, refuted): a class declared with no label at all gets a
record with the empty label, and no diagnostic is written, under every
enumeration order. -/
theorem unlabelled_class_counterexample :
    run "no" [stmtIsA ⟨"urn:C"⟩ rdfsClass]
      = some ⟨[(⟨"urn:C"⟩, [])], [], [], ⟨"urn:C"⟩, ⟨""⟩⟩ ∧
    ∀ e : Enumeration, e.Valid ⟨[(⟨"urn:C"⟩, [])], [], [], ⟨"urn:C"⟩, ⟨""⟩⟩ →
      (build "no" ⟨[(⟨"urn:C"⟩, [])], [], [], ⟨"urn:C"⟩, ⟨""⟩⟩ e).ont.Classes
        = [⟨"", []⟩] ∧
      (build "no" ⟨[(⟨"urn:C"⟩, [])], [], [], ⟨"urn:C"⟩, ⟨""⟩⟩ e).log = [] := by
  refine ⟨by decide, ?_⟩
  intro e hval
  obtain ⟨hc, hp, -⟩ := hval
  have hC : e.classOrder = [⟨"urn:C"⟩] := by simpa [GoMap.keys] using hc
  have hP : e.propOrder ⟨"urn:C"⟩ = [] := by
    have := hp ⟨"urn:C"⟩ (by simp [GoMap.keys])
    simpa [State.props, GoMap.get?, GoMap.keys] using this
  rw [build_classes, build_log]
  simp [hC, classRecord, attrVisitsOf, logVisits, logVisitsOf, hP, State.label, GoMap.get?]

/-- C6 (amended): for every statement sequence on which the pass succeeds and
every resource that is the subject of a statement with object `rdfs:Class` and
of no label statement in the preferred language, under every enumeration
order: the class loop visits the resource and appends a record with the empty
label for it; and every diagnostic is written for a property that is attached
to a class, has no recorded range and has an empty label, so none is written
on account of the label of a class. -/
theorem unlabelled_class_record (lang : String) (trs : List Triple) (st : State) (x : IRI)
    (e : Enumeration) (hrun : run lang trs = some st)
    (hdecl : ∃ tr ∈ trs, tr.Obj = .iri rdfsClass ∧ tr.Subj = .iri x)
    (hnone : ∀ tr ∈ trs, ∀ l, tr.Subj = .iri x → tr.Pred = .iri rdfsLabel →
      tr.Obj = .literal l → l.lang ≠ lang)
    (hval : e.Valid st) :
    (build lang st e).ont.Classes = e.classOrder.map (classRecord st e) ∧
    x ∈ e.classOrder ∧ (classRecord st e x).Label = "" ∧
    (build lang st e).log = (logVisits st e).map (fun v => diagnostic lang v.2) ∧
    ∀ v ∈ logVisits st e, v.1 ∈ st.classes.keys ∧ v.2 ∈ (st.props v.1).keys ∧
      st.hasRange v.2 = false ∧ st.label v.2 = "" := by
  refine ⟨build_classes lang st e, ?_, ?_, build_log lang st e, fun v hv => mem_logVisits hval hv⟩
  · exact hval.1.mem_iff.mpr ((runFrom_keys trs x hrun).mpr (Or.inr (Or.inl hdecl)))
  · rcases run_label_origin x hrun with h | ⟨tr, hm, hs, hp, l, ho, hl, -⟩
    · exact h
    · exact absurd hl (hnone tr hm l hs hp ho)

/-- A class whose only label is in another language than the preferred one. -/
theorem unlabelled_class_record_witness :
    (build "no" foreignLabelState foreignLabelState.insertionOrder).ont.Classes
      = foreignLabelState.insertionOrder.classOrder.map
          (classRecord foreignLabelState foreignLabelState.insertionOrder) ∧
    (⟨"urn:C"⟩ : IRI) ∈ foreignLabelState.insertionOrder.classOrder ∧
    (classRecord foreignLabelState foreignLabelState.insertionOrder ⟨"urn:C"⟩).Label = "" ∧
    (build "no" foreignLabelState foreignLabelState.insertionOrder).log
      = (logVisits foreignLabelState foreignLabelState.insertionOrder).map
          (fun v => diagnostic "no" v.2) ∧
    ∀ v ∈ logVisits foreignLabelState foreignLabelState.insertionOrder,
      v.1 ∈ foreignLabelState.classes.keys ∧ v.2 ∈ (foreignLabelState.props v.1).keys ∧
        foreignLabelState.hasRange v.2 = false ∧ foreignLabelState.label v.2 = "" :=
  unlabelled_class_record "no" foreignLabelTriples foreignLabelState ⟨"urn:C"⟩
    foreignLabelState.insertionOrder (by decide)
    ⟨stmtIsA ⟨"urn:C"⟩ rdfsClass, by simp [foreignLabelTriples], rfl, rfl⟩
    (by
      intro tr hm l _ hp ho
      simp only [foreignLabelTriples, List.mem_cons, List.mem_singleton, List.mem_nil_iff,
        or_false] at hm
      rcases hm with rfl | rfl
      · exact absurd hp (by decide)
      · simp only [stmtLabel, Term.literal.injEq] at ho
        subst ho
        decide)
    (by decide)

/-! ## Two labels in the preferred language -/

/-- C7 (as stated, refuted): a class declaration followed by the labels "v1"
then "v2" in the preferred language resolves the label to "v2", not to the
first value; the same for a property. -/
theorem first_match_counterexample :
    (run "no" [stmtIsA ⟨"urn:C"⟩ rdfsClass, stmtLabel ⟨"urn:C"⟩ "v1" "no",
        stmtLabel ⟨"urn:C"⟩ "v2" "no"]).map (fun st => st.label ⟨"urn:C"⟩) = some "v2" ∧
    (run "no" [stmtIsA ⟨"urn:P"⟩ rdfsProperty, stmtLabel ⟨"urn:P"⟩ "v1" "no",
        stmtLabel ⟨"urn:P"⟩ "v2" "no"]).map (fun st => st.label ⟨"urn:P"⟩) = some "v2" ∧
    ("v2" : String) ≠ "v1" := by
  decide

/-- C7 (amended): last match wins.  From every state, a class or property
declaration of `r` followed by two label statements of `r` in the preferred
language with values `v1` then `v2` is processed without failure and leaves
`v2`, the last matching literal, as the label of `r`. -/
theorem last_match_wins (lang : String) (st : State) (r : IRI) (v1 v2 : String) :
    (∃ st1, runFrom lang st
        [stmtIsA r rdfsClass, stmtLabel r v1 lang, stmtLabel r v2 lang] = some st1 ∧
      st1.label r = v2) ∧
    (∃ st1, runFrom lang st
        [stmtIsA r rdfsProperty, stmtLabel r v1 lang, stmtLabel r v2 lang] = some st1 ∧
      st1.label r = v2) := by
  constructor
  · refine ⟨⟨st.classes.set r [], (st.iriLabels.set r v1).set r v2, st.relations, r,
      st.curProp⟩, ?_, ?_⟩
    · simp [runFrom, step_isA_class, step_label]
    · simp [State.label, GoMap.get?_set_self]
  · refine ⟨⟨st.classes, (st.iriLabels.set r v1).set r v2, st.relations, st.curSubj, r⟩,
      ?_, ?_⟩
    · simp [runFrom, step_isA_property, step_label]
    · simp [State.label, GoMap.get?_set_self]

/-! ## The diagnostics -/

theorem logVisits_perm {st : State} {e : Enumeration} (hval : e.Valid st) :
    (logVisits st e).Perm (unresolvedPairs st) := by
  obtain ⟨hc, hp, -⟩ := hval
  unfold logVisits unresolvedPairs
  refine List.Perm.trans (List.Perm.flatMap_left _ ?_) (hc.flatMap_right _)
  intro c hcm
  exact ((hp c (hc.mem_iff.mp hcm)).filter _).map _

theorem unresolvedPairs_nodup {st : State} (hwf : st.WF) : (unresolvedPairs st).Nodup := by
  unfold unresolvedPairs
  rw [List.nodup_flatMap]
  constructor
  · intro c _
    exact ((hwf.2.1 c).filter _).map (fun a b hab => by simpa using hab)
  · refine List.Pairwise.imp ?_ hwf.1
    intro c c1 hne v hv hv1
    simp only [List.mem_map] at hv hv1
    obtain ⟨_, _, rfl⟩ := hv
    obtain ⟨_, _, h⟩ := hv1
    exact hne (by simpa using (congrArg Prod.fst h).symm)

theorem mem_unresolvedPairs (st : State) (v : IRI × IRI) :
    v ∈ unresolvedPairs st ↔
      v.1 ∈ st.classes.keys ∧ v.2 ∈ (st.props v.1).keys ∧ st.hasRange v.2 = false ∧
        st.label v.2 = "" := by
  obtain ⟨c, lit⟩ := v
  simp only [unresolvedPairs, List.mem_flatMap, List.mem_map, List.mem_filter,
    Bool.and_eq_true, Bool.not_eq_true', decide_eq_true_eq, Prod.mk.injEq]
  constructor
  · rintro ⟨c1, hc1, lit1, ⟨hl, hr, hlab⟩, rfl, rfl⟩
    exact ⟨hc1, hl, hr, hlab⟩
  · rintro ⟨hc, hl, hr, hlab⟩
    exact ⟨c, hc, lit, ⟨hl, hr, hlab⟩, rfl, rfl⟩

/-- C8 (as stated, refuted): a class and a property with a range, none with
a label.  Under every enumeration order the model has one class record with
an empty label and one link whose three fields are empty, no pair counts as
unresolved, and no diagnostic is written: four occurrences, zero diagnostics. -/
theorem diagnostics_counterexample :
    run "no" unlabelledLinkTriples = some unlabelledLinkState ∧
    ∀ e : Enumeration, e.Valid unlabelledLinkState →
      (build "no" unlabelledLinkState e).ont = ⟨[⟨"", []⟩], [⟨"", "", ""⟩]⟩ ∧
      (build "no" unlabelledLinkState e).log.length = 0 ∧
      (unresolvedPairs unlabelledLinkState).length
        + emptyFields (build "no" unlabelledLinkState e).ont = 4 := by
  refine ⟨by decide, ?_⟩
  intro e hval
  obtain ⟨hc, hp, hr⟩ := hval
  have hC : e.classOrder = [⟨"urn:A"⟩] := by
    simpa [unlabelledLinkState, GoMap.keys] using hc
  have hP : e.propOrder ⟨"urn:A"⟩ = [⟨"urn:P"⟩] := by
    have := hp ⟨"urn:A"⟩ (by decide)
    simpa [unlabelledLinkState, State.props, GoMap.get?, GoMap.keys] using this
  have hR : e.rangeOrder ⟨"urn:A"⟩ ⟨"urn:P"⟩ = [⟨"urn:A"⟩] := by
    have := hr ⟨"urn:A"⟩ (by decide) ⟨"urn:P"⟩ (by decide)
    have hk : (unlabelledLinkState.rel ⟨"urn:P"⟩).keys = [⟨"urn:A"⟩] := by decide
    rw [hk] at this
    simpa using this
  have hrange : unlabelledLinkState.hasRange ⟨"urn:P"⟩ = true := by decide
  have hlab : ∀ x, unlabelledLinkState.label x = "" := by
    intro x; simp [State.label, unlabelledLinkState, GoMap.get?]
  have h1 := build_classes "no" unlabelledLinkState e
  have h2 := build_links "no" unlabelledLinkState e
  have h3 := build_log "no" unlabelledLinkState e
  simp only [hC, List.map_cons, List.map_nil, classRecord, attrVisitsOf, hP, linkVisits,
    linkVisitsOf, logVisits, logVisitsOf, List.filter_cons, List.filter_nil, hrange, hR,
    List.flatMap_nil, List.flatMap_cons, List.append_nil, hlab, if_true, State.mkLink,
    Bool.not_true, Bool.false_and, Bool.false_eq_true, if_false] at h1 h2 h3
  have hu : (unresolvedPairs unlabelledLinkState).length = 0 := by decide
  generalize build "no" unlabelledLinkState e = out at h1 h2 h3
  obtain ⟨⟨cs, ls⟩, _, lg⟩ := out
  simp only at h1 h2 h3
  subst h1 h2 h3
  refine ⟨rfl, rfl, ?_⟩
  rw [hu]
  show 0 + emptyFields ⟨[⟨"", []⟩], [⟨"", "", ""⟩]⟩ = 4
  decide

/-- C8 (amended): for every statement sequence on which the pass succeeds and
every enumeration order, a diagnostic is written exactly once per (class,
property) pair where the property is attached to the class, has no recorded
range and has an empty label, and for nothing else; each diagnostic names the
preferred language and the property; a property with an empty label adds no
row, so no attribute row is the empty string. -/
theorem diagnostic_per_unresolved_pair (lang : String) (trs : List Triple) (st : State) (e : Enumeration)
    (hrun : run lang trs = some st) (hval : e.Valid st) :
    (build lang st e).log = (logVisits st e).map (fun v => diagnostic lang v.2) ∧
    (logVisits st e).Perm (unresolvedPairs st) ∧ (unresolvedPairs st).Nodup ∧
    (build lang st e).log.length = (unresolvedPairs st).toFinset.card ∧
    (∀ v, v ∈ unresolvedPairs st ↔
      v.1 ∈ st.classes.keys ∧ v.2 ∈ (st.props v.1).keys ∧ st.hasRange v.2 = false ∧
        st.label v.2 = "") ∧
    (∀ c, ∀ lit ∈ attrVisitsOf st e c, st.label lit ≠ "") ∧
    (∀ c ∈ (build lang st e).ont.Classes, "" ∉ c.Literals) := by
  have hwf := wf_run hrun
  have hattr : ∀ c, ∀ lit ∈ attrVisitsOf st e c, st.label lit ≠ "" := by
    intro c lit hl
    simp only [attrVisitsOf, List.mem_filter, Bool.and_eq_true, Bool.not_eq_true',
      decide_eq_false_iff_not] at hl
    exact hl.2.2
  refine ⟨build_log lang st e, logVisits_perm hval, unresolvedPairs_nodup hwf, ?_,
    mem_unresolvedPairs st, hattr, ?_⟩
  · rw [build_log, List.length_map, (logVisits_perm hval).length_eq,
      List.toFinset_card_of_nodup (unresolvedPairs_nodup hwf)]
  · intro c hc hmem
    rw [build_classes] at hc
    simp only [List.mem_map] at hc
    obtain ⟨cls, -, rfl⟩ := hc
    simp only [classRecord, List.mem_map] at hmem
    obtain ⟨lit, hl, hlab⟩ := hmem
    exact hattr cls lit hl hlab

/-- One labelled and one unlabelled attribute: one diagnostic, one row. -/
theorem diagnostic_per_unresolved_pair_witness :
    (build "no" halfLabelledState halfLabelledState.insertionOrder).log
      = (logVisits halfLabelledState halfLabelledState.insertionOrder).map
          (fun v => diagnostic "no" v.2) ∧
    (logVisits halfLabelledState halfLabelledState.insertionOrder).Perm
      (unresolvedPairs halfLabelledState) ∧
    (unresolvedPairs halfLabelledState).Nodup ∧
    (build "no" halfLabelledState halfLabelledState.insertionOrder).log.length
      = (unresolvedPairs halfLabelledState).toFinset.card ∧
    (∀ v, v ∈ unresolvedPairs halfLabelledState ↔
      v.1 ∈ halfLabelledState.classes.keys ∧ v.2 ∈ (halfLabelledState.props v.1).keys ∧
        halfLabelledState.hasRange v.2 = false ∧ halfLabelledState.label v.2 = "") ∧
    (∀ c, ∀ lit ∈ attrVisitsOf halfLabelledState halfLabelledState.insertionOrder c,
      halfLabelledState.label lit ≠ "") ∧
    (∀ c ∈ (build "no" halfLabelledState halfLabelledState.insertionOrder).ont.Classes,
      "" ∉ c.Literals) :=
  diagnostic_per_unresolved_pair "no" halfLabelledTriples halfLabelledState
    halfLabelledState.insertionOrder (by decide) (by decide)

/-! ## Dependence on the enumeration order -/

/-- C9 (as stated, refuted): on one statement sequence two enumeration orders
of the maps, both visiting every key once, give models that differ in the
order of the classes and in the order of the links. -/
theorem determinism_counterexample :
    run "no" crossTriples = some crossState ∧
    crossState.insertionOrder.Valid crossState ∧ crossReversed.Valid crossState ∧
    (build "no" crossState crossState.insertionOrder).ont
      = ⟨[⟨"A", []⟩, ⟨"B", []⟩],
          [⟨"A", "A", "rel"⟩, ⟨"A", "B", "rel"⟩, ⟨"B", "A", "rel"⟩, ⟨"B", "B", "rel"⟩]⟩ ∧
    (build "no" crossState crossReversed).ont
      = ⟨[⟨"B", []⟩, ⟨"A", []⟩],
          [⟨"B", "B", "rel"⟩, ⟨"B", "A", "rel"⟩, ⟨"A", "B", "rel"⟩, ⟨"A", "A", "rel"⟩]⟩ ∧
    (build "no" crossState crossState.insertionOrder).ont
      ≠ (build "no" crossState crossReversed).ont := by
  decide

theorem visits_congr {st : State} {e1 e2 : Enumeration} (h1 : e1.Valid st) {c : IRI}
    (hc : c ∈ st.classes.keys) (hp : e1.propOrder c = e2.propOrder c)
    (hr : ∀ lit ∈ (st.props c).keys, e1.rangeOrder c lit = e2.rangeOrder c lit) :
    classRecord st e1 c = classRecord st e2 c ∧ linkVisitsOf st e1 c = linkVisitsOf st e2 c ∧
      logVisitsOf st e1 c = logVisitsOf st e2 c := by
  refine ⟨by simp [classRecord, attrVisitsOf, hp], ?_, by simp [logVisitsOf, hp]⟩
  unfold linkVisitsOf
  rw [← hp]
  apply List.flatMap_congr
  intro lit hl
  rw [hr lit ((h1.2.1 c hc).mem_iff.mp hl)]

/-- Two enumerations that agree on the keys of the maps give the same result
of the construction, diagnostics included. -/
theorem build_congr (lang : String) {st : State} {e1 e2 : Enumeration} (h1 : e1.Valid st)
    (hc : e1.classOrder = e2.classOrder)
    (hp : ∀ c ∈ st.classes.keys, e1.propOrder c = e2.propOrder c)
    (hr : ∀ c ∈ st.classes.keys, ∀ lit ∈ (st.props c).keys,
      e1.rangeOrder c lit = e2.rangeOrder c lit) :
    build lang st e1 = build lang st e2 := by
  have hv : ∀ c ∈ e1.classOrder,
      classRecord st e1 c = classRecord st e2 c ∧ linkVisitsOf st e1 c = linkVisitsOf st e2 c ∧
        logVisitsOf st e1 c = logVisitsOf st e2 c := by
    intro c hcm
    have hk := h1.1.mem_iff.mp hcm
    exact visits_congr h1 hk (hp c hk) (hr c hk)
  have hA : e1.classOrder.map (classRecord st e1) = e2.classOrder.map (classRecord st e2) := by
    rw [← hc]; exact List.map_congr_left fun c hcm => (hv c hcm).1
  have hB : e1.classOrder.flatMap (linkVisitsOf st e1)
      = e2.classOrder.flatMap (linkVisitsOf st e2) := by
    rw [← hc]; exact List.flatMap_congr fun c hcm => (hv c hcm).2.1
  have hC : (e1.classOrder.flatMap fun cls => (logVisitsOf st e1 cls).map fun lit => (cls, lit))
      = e2.classOrder.flatMap fun cls => (logVisitsOf st e2 cls).map fun lit => (cls, lit) := by
    rw [← hc]; exact List.flatMap_congr fun c hcm => by rw [(hv c hcm).2.2]
  rw [hc] at hA hB hC
  simp only [build, classLoop_eq, hc, hA, hB, hC]

theorem insertionOrder_valid (st : State) : st.insertionOrder.Valid st :=
  ⟨List.Perm.refl _, fun _ _ => List.Perm.refl _, fun _ _ _ _ => List.Perm.refl _⟩

/-! ## Range statements whose object is not a known class -/

/-- C10 (as stated, refuted).  First: in the initial state `rdfs:Class` is not
a key of the class map, yet the range statement "`urn:P` range `rdfs:Class`"
registers `urn:P` as a class and moves the class cursor.  Second: the only
range statement of `urn:P` names a datatype, yet a range is recorded for
`urn:P` and a link is produced for it, because the range statement of
`urn:Q` is processed while `urn:P` is the property cursor. -/
theorem ignored_range_counterexample :
    (rdfsClass ∉ State.init.classes.keys ∧
      step "no" State.init (stmtRange ⟨"urn:P"⟩ rdfsClass)
        = some ⟨[(⟨"urn:P"⟩, [])], [], [], ⟨"urn:P"⟩, ⟨""⟩⟩ ∧
      step "no" State.init (stmtRange ⟨"urn:P"⟩ rdfsClass) ≠ some State.init) ∧
    (run "no" strayRangeTriples = some strayRangeState ∧
      (strayRangeTriples.filter fun tr =>
          decide (tr.Subj = .iri ⟨"urn:P"⟩ ∧ tr.Pred = .iri rdfsRange))
        = [stmtRange ⟨"urn:P"⟩ ⟨"urn:string"⟩] ∧
      (run "no" (strayRangeTriples.take 3)).map
          (fun st => st.classes.contains ⟨"urn:string"⟩) = some false ∧
      strayRangeState.hasRange ⟨"urn:P"⟩ = true ∧
      linkVisits strayRangeState strayRangeState.insertionOrder
        = [(⟨"urn:C"⟩, ⟨"urn:P"⟩, ⟨"urn:C"⟩)]) := by
  decide

theorem step_ignored_range (lang : String) (st : State) (s : Term) (o : IRI)
    (hk : o ∉ st.classes.keys) (hc : o ≠ rdfsClass) (hp : o ≠ rdfsProperty) :
    step lang st ⟨s, .iri rdfsRange, .iri o⟩ = some st := by
  have h1 : ¬ rdfsRange = rdfsLabel := by decide
  have h4 : ¬ rdfsRange = rdfsDomain := by decide
  have hcon : st.classes.contains o = false := by
    cases h : st.classes.contains o with
    | false => rfl
    | true => exact absurd ((GoMap.contains_iff_mem_keys _ _).mp h) hk
  simp [step, stepClass, stepClassLabel, stepProperty, stepPropertyLabel,
    stepDomain, stepRange, TermsEqual, Term.asIRI, h1, h4, hc, hp, hcon]

theorem stepRange_relations {st st1 : State} {tr : Triple} (hs : stepRange st tr = some st1) :
    st1.relations = st.relations ∨
      (tr.Pred = .iri rdfsRange ∧ ∃ obj, tr.Obj = .iri obj ∧ obj ∈ st.classes.keys ∧
        st1.relations = addToSet st.relations st.curProp obj) := by
  unfold stepRange at hs
  split at hs
  · rename_i hpred
    have hpred1 : tr.Pred = .iri rdfsRange := by simpa [TermsEqual] using hpred
    cases hobj : tr.Obj with
    | iri o =>
      simp only [hobj, Term.asIRI, Option.some_bind] at hs
      split at hs
      · rename_i hk
        simp only [Option.some.injEq] at hs
        subst hs
        exact Or.inr ⟨hpred1, o, rfl, (GoMap.contains_iff_mem_keys _ _).mp hk, rfl⟩
      · simp only [Option.some.injEq] at hs; subst hs; exact Or.inl rfl
    | blank b => simp [hobj, Term.asIRI] at hs
    | literal l => simp [hobj, Term.asIRI] at hs
  · simp only [Option.some.injEq] at hs; subst hs; exact Or.inl rfl

theorem hasRange_addToSet_ne (st : State) (k obj p : IRI) (h : k ≠ p) :
    State.hasRange { st with relations := addToSet st.relations k obj } p = st.hasRange p := by
  simp [State.hasRange, GoMap.contains, get?_addToSet, h]

/-- A step records a range for `p` only through a range statement that is
processed while `p` is the property cursor and that is not an ignored one. -/
theorem step_hasRange {lang : String} {st st1 : State} {tr : Triple} (p : IRI)
    (hs : step lang st tr = some st1) (h0 : st.hasRange p = false)
    (hq : (!(decide (tr.Pred = .iri rdfsRange) && decide (st1.curProp = p))
      || ignoredRange st tr) = true) :
    st1.hasRange p = false := by
  obtain ⟨s1, s2, s3, s4, s5, h1, h2, h3, h4, h5, h6⟩ := step_parts hs
  have hrel5 : s5.relations = st.relations := by
    rw [(stepDomain_labels h5).2.1, (stepPropertyLabel_maps h4).2.1,
      (stepProperty_maps h3).2.1, (stepClassLabel_maps h2).2.1, (stepClass_labels h1).2.1]
  have hcur : st1.curProp = s5.curProp := (stepRange_maps h6).2.2.2
  rcases stepRange_relations h6 with hrel | ⟨hpred, obj, hobj, -, hrel⟩
  · simpa [State.hasRange, hrel, hrel5] using h0
  · by_cases hcp : s5.curProp = p
    · have hig : ignoredRange st tr = true := by
        simpa [hpred, hcur, hcp] using hq
      unfold ignoredRange at hig
      rw [hobj] at hig
      simp only [Bool.and_eq_true, Bool.not_eq_true', decide_eq_false_iff_not] at hig
      obtain ⟨⟨hk, hc⟩, hpr⟩ := hig
      have hk1 : obj ∉ st.classes.keys := by
        intro hm
        rw [(GoMap.contains_iff_mem_keys _ _).mpr hm] at hk
        exact absurd hk (by simp)
      have htr : tr = ⟨tr.Subj, .iri rdfsRange, .iri obj⟩ := by
        cases tr; simp_all
      rw [htr, step_ignored_range lang st tr.Subj obj hk1 hc hpr] at hs
      simp only [Option.some.injEq] at hs
      rw [← hs]; exact h0
    · have := hasRange_addToSet_ne s5 s5.curProp obj p hcp
      simp only [State.hasRange, hrel5] at this h0 ⊢
      rw [hrel, hrel5, this, h0]

theorem runFrom_hasRange {lang : String} (trs : List Triple) {st st1 : State} (p : IRI)
    (hs : runFrom lang st trs = some st1) (h0 : st.hasRange p = false)
    (hq : rangesIgnoredFor lang p st trs = true) : st1.hasRange p = false := by
  induction trs generalizing st with
  | nil => simp only [runFrom, Option.some.injEq] at hs; subst hs; exact h0
  | cons tr trs ih =>
    simp only [runFrom, Option.bind_eq_some] at hs
    obtain ⟨s1, h1, h2⟩ := hs
    simp only [rangesIgnoredFor, h1, Bool.and_eq_true] at hq
    exact ih h2 (step_hasRange p h1 h0 hq.1) hq.2

/-- C10 (amended): for every state and every range statement whose object is
an IRI that is not a key of the class map at that moment and is neither
`rdfs:Class` nor `rdfs:Property`, the step succeeds and leaves the class map,
the labels, the recorded ranges and both cursors unchanged, whatever the
subject is; consequently, on a sequence where every range statement that is
processed while `p` is the property cursor is of this kind, no range is
recorded for `p` and no link is produced for `p` under any enumeration. -/
theorem range_of_unknown_class (lang : String) :
    (∀ (st : State) (s : Term) (o : IRI), o ∉ st.classes.keys → o ≠ rdfsClass →
      o ≠ rdfsProperty → step lang st ⟨s, .iri rdfsRange, .iri o⟩ = some st) ∧
    (∀ (trs : List Triple) (st : State) (p : IRI), run lang trs = some st →
      rangesIgnoredFor lang p State.init trs = true →
      st.hasRange p = false ∧ ∀ e : Enumeration, ∀ v ∈ linkVisits st e, v.2.1 ≠ p) := by
  refine ⟨fun st s o hk hc hp => step_ignored_range lang st s o hk hc hp, ?_⟩
  intro trs st p hrun hq
  have hinit : State.init.hasRange p = false := by
    simp [State.hasRange, State.init, GoMap.contains, GoMap.get?]
  have hno : st.hasRange p = false := runFrom_hasRange trs p hrun hinit hq
  refine ⟨hno, ?_⟩
  intro e v hv hvp
  simp only [linkVisits, linkVisitsOf, List.mem_flatMap] at hv
  obtain ⟨c, -, lit, -, hmem⟩ := hv
  by_cases hr : st.hasRange lit = true
  · simp only [hr, if_true, List.mem_map] at hmem
    obtain ⟨obj, -, rfl⟩ := hmem
    simp only at hvp
    rw [hvp, hno] at hr
    exact absurd hr (by simp)
  · simp [hr] at hmem

/-- A range statement naming a datatype, from a blank-node subject and in a
whole sequence. -/
theorem range_of_unknown_class_witness :
    step "no" crossState ⟨.blank "b0", .iri rdfsRange, .iri ⟨"urn:string"⟩⟩ = some crossState ∧
    datatypeRangeState.hasRange ⟨"urn:P"⟩ = false ∧
    ∀ e : Enumeration, ∀ v ∈ linkVisits datatypeRangeState e, v.2.1 ≠ ⟨"urn:P"⟩ :=
  ⟨(range_of_unknown_class "no").1 crossState (.blank "b0") ⟨"urn:string"⟩
      (by decide) (by decide) (by decide),
    (range_of_unknown_class "no").2 datatypeRangeTriples datatypeRangeState ⟨"urn:P"⟩
      (by decide) (by decide)⟩

/-! ## One class record per registered resource -/

theorem asIRI_toList_mem (t : Term) (x : IRI) : x ∈ t.asIRI.toList ↔ t = .iri x := by
  cases t <;> simp [Term.asIRI, eq_comm]

theorem mem_classResources (trs : List Triple) (x : IRI) :
    x ∈ classResources trs ↔
      (∃ tr ∈ trs, tr.Obj = .iri rdfsClass ∧ tr.Subj = .iri x) ∨
        (∃ tr ∈ trs, tr.Pred = .iri rdfsDomain ∧ tr.Obj = .iri x) := by
  simp only [classResources, List.mem_flatMap, List.mem_append]
  constructor
  · rintro ⟨tr, hm, h | h⟩
    · by_cases hc : tr.Obj = .iri rdfsClass
      · rw [if_pos hc, asIRI_toList_mem] at h
        exact Or.inl ⟨tr, hm, hc, h⟩
      · simp [hc] at h
    · by_cases hd : tr.Pred = .iri rdfsDomain
      · rw [if_pos hd, asIRI_toList_mem] at h
        exact Or.inr ⟨tr, hm, hd, h⟩
      · simp [hd] at h
  · rintro (⟨tr, hm, hc, hs⟩ | ⟨tr, hm, hd, ho⟩)
    · exact ⟨tr, hm, Or.inl (by rw [if_pos hc, asIRI_toList_mem]; exact hs)⟩
    · exact ⟨tr, hm, Or.inr (by rw [if_pos hd, asIRI_toList_mem]; exact ho)⟩

/-- C11: for every statement sequence on which the pass succeeds and every
enumeration order, the classes of the model are the records of the visited
resources, no resource is visited twice, the visited resources are exactly
the subjects of the statements whose object is `rdfs:Class` and the objects
of the domain statements, and the number of class records is the number of
distinct such resources. -/
theorem one_record_per_class (lang : String) (trs : List Triple) (st : State)
    (e : Enumeration) (hrun : run lang trs = some st) (hval : e.Valid st) :
    (build lang st e).ont.Classes = e.classOrder.map (classRecord st e) ∧
    e.classOrder.Nodup ∧
    (∀ x, x ∈ e.classOrder ↔
      (∃ tr ∈ trs, tr.Obj = .iri rdfsClass ∧ tr.Subj = .iri x) ∨
        (∃ tr ∈ trs, tr.Pred = .iri rdfsDomain ∧ tr.Obj = .iri x)) ∧
    (build lang st e).ont.Classes.length = (classResources trs).toFinset.card := by
  have hwf := wf_run hrun
  have hnd : e.classOrder.Nodup := hval.1.nodup_iff.mpr hwf.1
  have hmem : ∀ x, x ∈ e.classOrder ↔
      (∃ tr ∈ trs, tr.Obj = .iri rdfsClass ∧ tr.Subj = .iri x) ∨
        (∃ tr ∈ trs, tr.Pred = .iri rdfsDomain ∧ tr.Obj = .iri x) := by
    intro x
    rw [hval.1.mem_iff]
    have h := runFrom_keys trs x hrun
    simpa [State.init, GoMap.keys] using h
  refine ⟨build_classes lang st e, hnd, hmem, ?_⟩
  rw [build_classes, List.length_map, ← List.toFinset_card_of_nodup hnd]
  congr 1
  ext x
  simp only [List.mem_toFinset]
  rw [hmem x, mem_classResources]

/-- Four statements register two distinct resources, two class records. -/
theorem one_record_per_class_witness :
    (build "no" undeclaredState undeclaredState.insertionOrder).ont.Classes
      = undeclaredState.insertionOrder.classOrder.map
          (classRecord undeclaredState undeclaredState.insertionOrder) ∧
    undeclaredState.insertionOrder.classOrder.Nodup ∧
    (∀ x, x ∈ undeclaredState.insertionOrder.classOrder ↔
      (∃ tr ∈ undeclaredTriples, tr.Obj = .iri rdfsClass ∧ tr.Subj = .iri x) ∨
        (∃ tr ∈ undeclaredTriples, tr.Pred = .iri rdfsDomain ∧ tr.Obj = .iri x)) ∧
    (build "no" undeclaredState undeclaredState.insertionOrder).ont.Classes.length
      = (classResources undeclaredTriples).toFinset.card :=
  one_record_per_class "no" undeclaredTriples undeclaredState undeclaredState.insertionOrder
    (by decide) (by decide)

/-! ## Labels on ungrouped input -/

/-- C12 (as stated, refuted): no step on a statement whose subject is not `r`
changes the label recorded for `r`, and no pass leaves `r` with a non-empty
label that is not the value of a label statement of `r` itself in the
preferred language. -/
theorem wrong_label_counterexample :
    (¬ ∃ (lang : String) (st st1 : State) (tr : Triple) (r : IRI),
      tr.Subj ≠ .iri r ∧ step lang st tr = some st1 ∧ st1.label r ≠ st.label r) ∧
    (¬ ∃ (lang : String) (trs : List Triple) (st : State) (r : IRI),
      run lang trs = some st ∧ st.label r ≠ "" ∧
        ∀ tr ∈ trs, ¬ IsLabelOf lang r (st.label r) tr) := by
  constructor
  · rintro ⟨lang, st, st1, tr, r, hne, hs, hl⟩
    rcases step_label_origin r hs with h | h
    · exact hl h
    · exact hne h.1
  · rintro ⟨lang, trs, st, r, hrun, hl, hall⟩
    rcases run_label_origin r hrun with h | ⟨tr, hm, h⟩
    · exact hl h
    · exact hall tr hm h

/-- C12 (amended): on ungrouped input labels are dropped, not attached to
another resource.  After every pass the label recorded for `r` is empty or
the value of a label statement whose subject is `r`; and for some sequences
in which the statements about a resource are not contiguous, a label
statement of a class, or of a property, in the preferred language is not
recorded at all and is recorded for no other resource. -/
theorem ungrouped_label_dropped :
    (∀ (lang : String) (trs : List Triple) (st : State) (r : IRI),
      run lang trs = some st →
        st.label r = "" ∨ ∃ tr ∈ trs, IsLabelOf lang r (st.label r) tr) ∧
    (stmtLabel ⟨"urn:A"⟩ "A" "no" ∈ ungroupedClassTriples ∧
      (run "no" ungroupedClassTriples).map (fun st => st.iriLabels) = some []) ∧
    (stmtLabel ⟨"urn:P"⟩ "p" "no" ∈ ungroupedPropertyTriples ∧
      (run "no" ungroupedPropertyTriples).map (fun st => st.iriLabels) = some []) :=
  ⟨fun _ _ _ r hrun => run_label_origin r hrun, by decide, by decide⟩

/-! ## What registers a class -/

theorem stepClass_of_ne {st : State} {tr : Triple} (h : tr.Obj ≠ .iri rdfsClass) :
    stepClass st tr = some st := by
  simp [stepClass, TermsEqual, h]

theorem stepDomain_of_ne {st : State} {tr : Triple} (h : tr.Pred ≠ .iri rdfsDomain) :
    stepDomain st tr = some st := by
  simp [stepDomain, TermsEqual, h]

/-- C13 (as stated, refuted): the predicate of "`urn:X` subClassOf
`rdfs:Class`" is neither `rdf:type` nor `rdfs:domain`, yet the step registers
`urn:X` as a class and moves the class cursor to it. -/
theorem type_only_counterexample :
    rdfsSubClassOf ≠ rdfType ∧ rdfsSubClassOf ≠ rdfsDomain ∧
    step "no" State.init ⟨.iri ⟨"urn:X"⟩, .iri rdfsSubClassOf, .iri rdfsClass⟩
      = some ⟨[(⟨"urn:X"⟩, [])], [], [], ⟨"urn:X"⟩, ⟨""⟩⟩ ∧
    State.init.classes.keys = [] ∧ State.init.curSubj = ⟨""⟩ := by
  decide

/-- C13 (amended): a resource is registered as a class by its object, not by
its predicate.  A successful step on a statement whose object is not
`rdfs:Class` and whose predicate is not `rdfs:domain` leaves the class map
(its keys and every property set) and the class cursor unchanged; a
successful step on a statement whose object is `rdfs:Class` makes its subject
a known class, whatever the predicate is. -/
theorem class_registered_by_object (lang : String) (st st1 : State) (tr : Triple)
    (hs : step lang st tr = some st1) :
    (tr.Obj ≠ .iri rdfsClass → tr.Pred ≠ .iri rdfsDomain →
      st1.classes = st.classes ∧ st1.curSubj = st.curSubj) ∧
    (∀ s, tr.Obj = .iri rdfsClass → tr.Subj = .iri s →
      s ∈ st1.classes.keys ∧ st1.curSubj = s) := by
  obtain ⟨s1, s2, s3, s4, s5, h1, h2, h3, h4, h5, h6⟩ := step_parts hs
  have c6 := stepRange_maps h6
  have c5 := stepDomain_labels h5
  have c4 := stepPropertyLabel_maps h4
  have c3 := stepProperty_maps h3
  have c2 := stepClassLabel_maps h2
  have hcur : st1.curSubj = s1.curSubj := by
    rw [c6.2.2.1, c5.2.2.1, c4.2.2.1, c3.2.2.2, c2.2.2.1]
  constructor
  · intro hobj hpred
    rw [stepClass_of_ne hobj] at h1
    rw [stepDomain_of_ne hpred] at h5
    simp only [Option.some.injEq] at h1 h5
    subst h1
    refine ⟨?_, hcur⟩
    rw [c6.1, ← h5, c4.1, c3.1, c2.1]
  · intro s hobj hsub
    refine ⟨(step_keys s hs).mpr (Or.inr (Or.inl ⟨hobj, hsub⟩)), ?_⟩
    rw [hcur]
    simp only [stepClass, TermsEqual, hobj, hsub, decide_True, if_true, Term.asIRI,
      Option.some_bind, Option.some.injEq] at h1
    rw [← h1]

/-- A property declaration moves the property cursor and leaves the class map
and the class cursor alone. -/
theorem class_registered_by_object_witness :
    ((stmtIsA ⟨"urn:Q"⟩ rdfsProperty).Obj ≠ .iri rdfsClass →
      (stmtIsA ⟨"urn:Q"⟩ rdfsProperty).Pred ≠ .iri rdfsDomain →
      (State.mk crossState.classes crossState.iriLabels crossState.relations
          ⟨"urn:B"⟩ ⟨"urn:Q"⟩).classes = crossState.classes ∧
        (State.mk crossState.classes crossState.iriLabels crossState.relations
          ⟨"urn:B"⟩ ⟨"urn:Q"⟩).curSubj = crossState.curSubj) ∧
    (∀ s, (stmtIsA ⟨"urn:Q"⟩ rdfsProperty).Obj = .iri rdfsClass →
      (stmtIsA ⟨"urn:Q"⟩ rdfsProperty).Subj = .iri s →
      s ∈ (State.mk crossState.classes crossState.iriLabels crossState.relations
          ⟨"urn:B"⟩ ⟨"urn:Q"⟩).classes.keys ∧
        (State.mk crossState.classes crossState.iriLabels crossState.relations
          ⟨"urn:B"⟩ ⟨"urn:Q"⟩).curSubj = s) :=
  class_registered_by_object "no" crossState
    (State.mk crossState.classes crossState.iriLabels crossState.relations
      ⟨"urn:B"⟩ ⟨"urn:Q"⟩)
    (stmtIsA ⟨"urn:Q"⟩ rdfsProperty) (by decide)

/-! ## Where a range and a domain statement record -/

/-- C14 (as stated, refuted): in a reached state with property cursor `urn:P`
where `rdfs:Property` is a known class, the range statement "`urn:S` range
`rdfs:Property`" first moves the property cursor to `urn:S` and then records
the object for `urn:S`: the range set of the former cursor does not get the
object, and the range set of the subject changes. -/
theorem range_cursor_counterexample :
    run "no" metaTriples = some metaState ∧
    metaState.curProp = ⟨"urn:P"⟩ ∧ rdfsProperty ∈ metaState.classes.keys ∧
    step "no" metaState (stmtRange ⟨"urn:S"⟩ rdfsProperty)
      = some ⟨[(rdfsProperty, [])], [], [(⟨"urn:S"⟩, [(rdfsProperty, true)])],
          rdfsProperty, ⟨"urn:S"⟩⟩ ∧
    rdfsProperty ∉ (State.rel ⟨[(rdfsProperty, [])], [],
        [(⟨"urn:S"⟩, [(rdfsProperty, true)])], rdfsProperty, ⟨"urn:S"⟩⟩ ⟨"urn:P"⟩).keys ∧
    (State.rel ⟨[(rdfsProperty, [])], [], [(⟨"urn:S"⟩, [(rdfsProperty, true)])],
        rdfsProperty, ⟨"urn:S"⟩⟩ ⟨"urn:S"⟩).keys ≠ (metaState.rel ⟨"urn:S"⟩).keys := by
  decide

/-- C14 (amended): for every state and every range statement with IRI
subject `s` whose object `o` is a known class at that moment and is not
`rdfs:Property`, the step succeeds, `o` belongs to the recorded range set of
the property cursor afterwards, and the recorded range set of every other
property, `s` included when it is not the cursor, is unchanged; and a domain
statement with IRI subject `s` and IRI object `c` always succeeds and
attaches `s` to `c`, whatever the cursors are. -/
theorem range_recorded_for_cursor (lang : String) (st : State) (s o c : IRI) :
    (o ∈ st.classes.keys → o ≠ rdfsProperty →
      ∃ st1, step lang st (stmtRange s o) = some st1 ∧
        o ∈ (st1.rel st.curProp).keys ∧
        ∀ q, q ≠ st.curProp → st1.relations.get? q = st.relations.get? q) ∧
    (∃ st1, step lang st (stmtDomain s c) = some st1 ∧ s ∈ (st1.props c).keys) := by
  constructor
  · intro hk hp
    have hcon : (if o = rdfsClass then st.classes.set s [] else st.classes).contains o
        = true := by
      rw [GoMap.contains_iff_mem_keys]
      split
      · exact (GoMap.mem_keys_set _ _ _ _).mpr (Or.inr hk)
      · exact hk
    refine ⟨_, step_range_gen lang st s o, ?_, ?_⟩
    · simp only [State.rel, hcon, if_true, hp, if_false, get?_addToSet, Option.getD_some]
      exact (GoMap.mem_keys_set _ _ _ _).mpr (Or.inl rfl)
    · intro q hq
      have hq1 : ¬ st.curProp = q := fun h => hq h.symm
      simp only [hcon, if_true, hp, if_false, get?_addToSet, hq1]
  · refine ⟨_, step_domain_gen lang st s c, ?_⟩
    simp only [State.props, get?_addToSet, if_true, Option.getD_some]
    exact (GoMap.mem_keys_set _ _ _ _).mpr (Or.inl rfl)

/-- A range statement of `urn:Q` processed while `urn:P` is the cursor, and
a domain statement naming a new class. -/
theorem range_recorded_for_cursor_witness :
    (∃ st1, step "no" datatypeRangeState (stmtRange ⟨"urn:Q"⟩ ⟨"urn:C"⟩) = some st1 ∧
        (⟨"urn:C"⟩ : IRI) ∈ (st1.rel datatypeRangeState.curProp).keys ∧
        ∀ q, q ≠ datatypeRangeState.curProp →
          st1.relations.get? q = datatypeRangeState.relations.get? q) ∧
    (∃ st1, step "no" datatypeRangeState (stmtDomain ⟨"urn:Q"⟩ ⟨"urn:D"⟩) = some st1 ∧
        (⟨"urn:Q"⟩ : IRI) ∈ (st1.props ⟨"urn:D"⟩).keys) :=
  ⟨(range_recorded_for_cursor "no" datatypeRangeState ⟨"urn:Q"⟩ ⟨"urn:C"⟩ ⟨"urn:D"⟩).1
      (by decide) (by decide),
    (range_recorded_for_cursor "no" datatypeRangeState ⟨"urn:Q"⟩ ⟨"urn:C"⟩ ⟨"urn:D"⟩).2⟩

/-! ## The rendered document -/

set_option maxRecDepth 1000000 in
/-- The text pieces are the template of the source cut at its actions. -/
theorem tmpl_pieces :
    tmpl = txtHead ++ "\x7b\x7brange .Classes -\x7d\x7d" ++ txtNodeOpen ++ "\x7b\x7b.Label\x7d\x7d" ++ txtNodeTable
      ++ "\x7b\x7b.Label\x7d\x7d" ++ txtHeaderClose ++ "\x7b\x7b- range .Literals -\x7d\x7d" ++ txtRowOpen ++ "\x7b\x7b.\x7d\x7d"
      ++ txtRowClose ++ "\x7b\x7bend\x7d\x7d" ++ txtNodeClose ++ "\x7b\x7bend\x7d\x7d" ++ txtMiddle
      ++ "\x7b\x7brange .Links -\x7d\x7d" ++ txtEdgeOpen ++ "\x7b\x7b.From\x7d\x7d" ++ txtArrow ++ "\x7b\x7b.To\x7d\x7d"
      ++ txtEdgeLabel ++ "\x7b\x7b.Label\x7d\x7d" ++ txtEdgeClose ++ "\x7b\x7bend\x7d\x7d" ++ txtTail := by
  decide

theorem trimLeft_txtNodeOpen : trimLeft txtNodeOpen = "\"" := by decide

theorem trimRight_txtHeaderClose :
    trimRight txtHeaderClose = "</FONT><BR ALIGN='LEFT'/></TD>\n\t\t\t</TR>" := by decide

theorem trimLeft_txtRowOpen : trimLeft txtRowOpen = "<TR><TD ALIGN='LEFT'><B>" := by decide

theorem trimLeft_txtEdgeOpen : trimLeft txtEdgeOpen = "\"" := by decide

theorem renderLiterals_eq (lits : List String) (out : String) :
    renderLiterals lits out
      = out ++ concat (lits.map fun lit =>
          "<TR><TD ALIGN='LEFT'><B>" ++ lit ++ "</B><BR ALIGN='LEFT'/></TD></TR>\n\t\t\t") := by
  induction lits generalizing out with
  | nil => simp [renderLiterals, concat]
  | cons lit lits ih =>
    simp only [renderLiterals, ih, trimLeft_txtRowOpen, List.map_cons, concat, txtRowClose,
      String.append_assoc]

theorem renderClasses_eq (cs : List Class) (out : String) :
    renderClasses cs out = out ++ concat (cs.map nodeStatement) := by
  induction cs generalizing out with
  | nil => simp [renderClasses, concat]
  | cons c cs ih =>
    simp only [renderClasses, ih, renderLiterals_eq, trimLeft_txtNodeOpen,
      trimRight_txtHeaderClose, List.map_cons, concat, nodeStatement, txtNodeClose,
      String.append_assoc]

theorem renderLinks_eq (ls : List Link) (out : String) :
    renderLinks ls out = out ++ concat (ls.map fun l => edgeStatement l ++ "\n\t") := by
  induction ls generalizing out with
  | nil => simp [renderLinks, concat]
  | cons l ls ih =>
    simp only [renderLinks, ih, trimLeft_txtEdgeOpen, List.map_cons, concat, edgeStatement,
      txtArrow, txtEdgeLabel, txtEdgeClose, String.append_assoc]
    rfl

theorem render_eq (m : Ontology) :
    render m = txtHead ++ concat (m.Classes.map nodeStatement) ++ txtMiddle
      ++ concat (m.Links.map fun l => edgeStatement l ++ "\n\t") ++ txtTail := by
  simp only [render, renderLinks_eq, renderClasses_eq]

theorem infix_concat {s : String} {l : List String} (h : s ∈ l) :
    s.data <:+: (concat l).data := by
  induction l with
  | nil => simp at h
  | cons a l ih =>
    simp only [concat, String.data_append]
    rcases List.mem_cons.mp h with rfl | h1
    · exact (List.prefix_append _ _).isInfix
    · exact (ih h1).trans (List.suffix_append _ _).isInfix

theorem infix_mid (a s b : String) : s.data <:+: (a ++ s ++ b).data := by
  simp only [String.data_append]
  exact List.infix_append _ _ _

theorem label_infix_nodeStatement (c : Class) : c.Label.data <:+: (nodeStatement c).data := by
  simp only [nodeStatement, String.data_append, List.append_assoc]
  exact List.infix_append' _ _ _

theorem row_infix_nodeStatement (c : Class) (lit : String) (h : lit ∈ c.Literals) :
    lit.data <:+: (nodeStatement c).data := by
  have h1 : ("<TR><TD ALIGN='LEFT'><B>" ++ lit
      ++ "</B><BR ALIGN='LEFT'/></TD></TR>\n\t\t\t").data
      <:+: (concat (c.Literals.map fun lit =>
        "<TR><TD ALIGN='LEFT'><B>" ++ lit
          ++ "</B><BR ALIGN='LEFT'/></TD></TR>\n\t\t\t")).data :=
    infix_concat (List.mem_map_of_mem _ h)
  have h2 := infix_mid "<TR><TD ALIGN='LEFT'><B>" lit
    "</B><BR ALIGN='LEFT'/></TD></TR>\n\t\t\t"
  refine (h2.trans h1).trans ?_
  unfold nodeStatement
  exact infix_mid _ _ _

theorem node_infix_render (m : Ontology) (c : Class) (h : c ∈ m.Classes) :
    (nodeStatement c).data <:+: (render m).data := by
  have h1 : (nodeStatement c).data <:+: (concat (m.Classes.map nodeStatement)).data :=
    infix_concat (List.mem_map_of_mem _ h)
  refine h1.trans ?_
  rw [render_eq]
  simp only [String.data_append, List.append_assoc]
  exact List.infix_append' _ _ _

theorem edge_infix_render (m : Ontology) (l : Link) (h : l ∈ m.Links) :
    (edgeStatement l).data <:+: (render m).data := by
  have h1 : (edgeStatement l ++ "\n\t").data
      <:+: (concat (m.Links.map fun l => edgeStatement l ++ "\n\t")).data :=
    infix_concat (List.mem_map_of_mem (fun l => edgeStatement l ++ "\n\t") h)
  have h0 : (edgeStatement l).data <:+: (edgeStatement l ++ "\n\t").data := by
    rw [String.data_append]; exact (List.prefix_append _ _).isInfix
  refine (h0.trans h1).trans ?_
  rw [render_eq]
  exact infix_mid _ _ _

/-- C15: for every intermediate model, the rendered document starts with the
header `digraph Ontology {`; it is the head text, one node statement per class
record in `Classes` order (the label in the node name and in the header cell,
then one row per attribute label in order), the middle text, one edge
statement per link in `Links` order of the form
`"From"->"To"[label=<<B>Label</B>>];`, and the tail text; and every label
occurs in the document as it is, whatever characters it holds: the model
`markupOntology`, whose labels hold `<`, `>`, `&` and double quotes, is
written without any escaping. -/
theorem render_verbatim (m : Ontology) :
    "digraph Ontology \x7b".data <+: (render m).data ∧
    render m = txtHead ++ concat (m.Classes.map nodeStatement) ++ txtMiddle
      ++ concat (m.Links.map fun l => edgeStatement l ++ "\n\t") ++ txtTail ∧
    (∀ c ∈ m.Classes, (nodeStatement c).data <:+: (render m).data ∧
      c.Label.data <:+: (render m).data ∧
      ∀ lit ∈ c.Literals, lit.data <:+: (render m).data) ∧
    (∀ l ∈ m.Links, (edgeStatement l).data <:+: (render m).data ∧
      edgeStatement l
        = "\"" ++ l.From ++ "\"->\"" ++ l.To ++ "\"[label=<<B>" ++ l.Label ++ "</B>>];") ∧
    render markupOntology
      = "digraph Ontology \x7b\n\tnode [shape=plaintext];\n\n\t\"a<b\"[label=<<TABLE BORDER='0' CELLBORDER='1' CELLSPACING='0' CELLPADDING='5'>\n\t\t\t<TR>\n\t\t\t\t<TD ALIGN='LEFT' BGCOLOR='#e0e0e0'><FONT POINT-SIZE='12' FACE='monospace'>a<b</FONT><BR ALIGN='LEFT'/></TD>\n\t\t\t</TR><TR><TD ALIGN='LEFT'><B>x&y</B><BR ALIGN='LEFT'/></TD></TR>\n\t\t\t\n\t\t</TABLE>>];\n\t\"\"q\"\"[label=<<TABLE BORDER='0' CELLBORDER='1' CELLSPACING='0' CELLPADDING='5'>\n\t\t\t<TR>\n\t\t\t\t<TD ALIGN='LEFT' BGCOLOR='#e0e0e0'><FONT POINT-SIZE='12' FACE='monospace'>\"q\"</FONT><BR ALIGN='LEFT'/></TD>\n\t\t\t</TR>\n\t\t</TABLE>>];\n\t\n\t\"a<b\"->\"\"q\"\"[label=<<B>r>s</B>>];\n\t\n\x7d\n" := by
  refine ⟨?_, render_eq m, ?_, ?_, ?_⟩
  · have hh : txtHead = "digraph Ontology \x7b" ++ "\n\tnode [shape=plaintext];\n\n\t" := by
      decide
    rw [render_eq, hh]
    simp only [String.data_append, List.append_assoc]
    exact List.prefix_append _ _
  · intro c hc
    refine ⟨node_infix_render m c hc,
      (label_infix_nodeStatement c).trans (node_infix_render m c hc), ?_⟩
    intro lit hl
    exact (row_infix_nodeStatement c lit hl).trans (node_infix_render m c hc)
  · intro l hl
    exact ⟨edge_infix_render m l hl, rfl⟩
  · set_option maxRecDepth 1000000 in decide

/-! ## No dangling edges -/

/-- What a link visit is made for: a known class, a property attached to it
that has a recorded range, and a member of that range. -/
theorem mem_linkVisits {st : State} {e : Enumeration} (hval : e.Valid st)
    {v : IRI × IRI × IRI} (hv : v ∈ linkVisits st e) :
    v.1 ∈ st.classes.keys ∧ v.2.1 ∈ (st.props v.1).keys ∧ st.hasRange v.2.1 = true ∧
      v.2.2 ∈ (st.rel v.2.1).keys := by
  simp only [linkVisits, linkVisitsOf, List.mem_flatMap] at hv
  obtain ⟨c, hc, lit, hlit, hmem⟩ := hv
  have hck := hval.1.mem_iff.mp hc
  have hlk := (hval.2.1 c hck).mem_iff.mp hlit
  by_cases hr : st.hasRange lit = true
  · simp only [hr, if_true, List.mem_map] at hmem
    obtain ⟨obj, hobj, rfl⟩ := hmem
    exact ⟨hck, hlk, hr, (hval.2.2 c hck lit hlk).mem_iff.mp hobj⟩
  · simp [hr] at hmem

theorem step_keys_mono {lang : String} {st st1 : State} {tr : Triple}
    (hs : step lang st tr = some st1) : ∀ x ∈ st.classes.keys, x ∈ st1.classes.keys :=
  fun x hx => (step_keys x hs).mpr (Or.inl hx)

theorem step_rangesKnown {lang : String} {st st1 : State} {tr : Triple}
    (h : st.RangesKnown) (hs : step lang st tr = some st1) : st1.RangesKnown := by
  obtain ⟨s1, s2, s3, s4, s5, h1, h2, h3, h4, h5, h6⟩ := step_parts hs
  have hrel5 : s5.relations = st.relations := by
    rw [(stepDomain_labels h5).2.1, (stepPropertyLabel_maps h4).2.1,
      (stepProperty_maps h3).2.1, (stepClassLabel_maps h2).2.1, (stepClass_labels h1).2.1]
  have hcl : st1.classes = s5.classes := (stepRange_maps h6).1
  have hmono := step_keys_mono hs
  intro p o ho
  rcases stepRange_relations h6 with hrel | ⟨-, obj, -, hobj, hrel⟩
  · apply hmono
    apply h p o
    simpa [State.rel, hrel, hrel5] using ho
  · simp only [State.rel, hrel, get?_addToSet, hrel5] at ho
    by_cases hp : s5.curProp = p
    · simp only [hp, if_true, Option.getD_some] at ho
      rcases (GoMap.mem_keys_set _ _ _ _).mp ho with ho | ho
      · rw [ho, hcl]; exact hobj
      · exact hmono o (h p o ho)
    · simp only [hp, if_false] at ho
      exact hmono o (h p o ho)

/-- C16: no dangling edges.  For every statement sequence on which the pass
succeeds and every enumeration order, the From label and the To label of
every link of the model are each the label of some class record of the model.
This rests on the invariant that every member of every recorded range set is
a key of the class map: it holds after the pass, every successful step keeps
it, and no step removes a key of the class map. -/
theorem no_dangling_edges (lang : String) (trs : List Triple) (st : State)
    (e : Enumeration) (hrun : run lang trs = some st) (hval : e.Valid st) :
    (∀ l ∈ (build lang st e).ont.Links,
      (∃ c ∈ (build lang st e).ont.Classes, c.Label = l.From) ∧
      (∃ c ∈ (build lang st e).ont.Classes, c.Label = l.To)) ∧
    st.RangesKnown ∧
    (∀ (s s1 : State) (tr : Triple), s.RangesKnown → step lang s tr = some s1 →
      s1.RangesKnown ∧ ∀ x ∈ s.classes.keys, x ∈ s1.classes.keys) := by
  have hwf := wf_run hrun
  have hknown : st.RangesKnown := hwf.2.2.2.2.2
  refine ⟨?_, hknown, fun s s1 tr hk hs => ⟨step_rangesKnown hk hs, step_keys_mono hs⟩⟩
  intro l hl
  rw [build_links] at hl
  simp only [List.mem_map] at hl
  obtain ⟨v, hv, rfl⟩ := hl
  obtain ⟨hc, -, -, ho⟩ := mem_linkVisits hval hv
  have hrec : ∀ x ∈ st.classes.keys,
      ∃ c ∈ (build lang st e).ont.Classes, c.Label = st.label x := by
    intro x hx
    rw [build_classes]
    exact ⟨classRecord st e x, List.mem_map_of_mem _ (hval.1.mem_iff.mpr hx), rfl⟩
  exact ⟨hrec v.1 hc, hrec v.2.2 (hknown v.2.1 v.2.2 ho)⟩

/-- Four links between two classes, every end a class record. -/
theorem no_dangling_edges_witness :
    (∀ l ∈ (build "no" crossState crossReversed).ont.Links,
      (∃ c ∈ (build "no" crossState crossReversed).ont.Classes, c.Label = l.From) ∧
      (∃ c ∈ (build "no" crossState crossReversed).ont.Classes, c.Label = l.To)) ∧
    crossState.RangesKnown ∧
    (∀ (s s1 : State) (tr : Triple), s.RangesKnown → step "no" s tr = some s1 →
      s1.RangesKnown ∧ ∀ x ∈ s.classes.keys, x ∈ s1.classes.keys) :=
  no_dangling_edges "no" crossTriples crossState crossReversed (by decide) (by decide)

/-! ## Agreement of the models up to order -/

theorem linkVisits_perm {st : State} {e : Enumeration} (hval : e.Valid st) :
    (linkVisits st e).Perm (allLinkVisits st) := by
  obtain ⟨hc, hp, hr⟩ := hval
  unfold linkVisits allLinkVisits
  refine List.Perm.trans (List.Perm.flatMap_left _ ?_) (hc.flatMap_right _)
  intro c hcm
  have hck := hc.mem_iff.mp hcm
  unfold linkVisitsOf
  refine List.Perm.trans (List.Perm.flatMap_left _ ?_) ((hp c hck).flatMap_right _)
  intro lit hl
  have hlk := (hp c hck).mem_iff.mp hl
  by_cases hh : st.hasRange lit = true
  · simp only [hh, if_true]
    exact (hr c hck lit hlk).map _
  · simp only [hh]
    exact List.Perm.refl _

theorem classRecords_perm (lang : String) {st : State} {e : Enumeration} (hval : e.Valid st) :
    ((build lang st e).ont.Classes.map normalClass).Perm (allClassRecords st) := by
  obtain ⟨hc, hp, -⟩ := hval
  rw [build_classes, List.map_map]
  unfold allClassRecords
  refine List.Perm.trans (List.Perm.of_eq (List.map_congr_left ?_)) (hc.map _)
  intro c hcm
  have hck := hc.mem_iff.mp hcm
  simp only [Function.comp_apply, normalClass, classRecord, attrVisitsOf, Prod.mk.injEq,
    true_and, Multiset.coe_eq_coe]
  exact ((hp c hck).filter _).map _

/-- The models built from one state under two enumeration orders agree up to
order. -/
theorem build_agree_up_to_order (lang : String) (st : State) (e1 e2 : Enumeration)
    (h1 : e1.Valid st) (h2 : e2.Valid st) :
    (build lang st e1).ont.Links.Perm (build lang st e2).ont.Links ∧
    ((build lang st e1).ont.Classes.map normalClass).Perm
      ((build lang st e2).ont.Classes.map normalClass) := by
  constructor
  · rw [build_links, build_links]
    exact ((linkVisits_perm h1).trans (linkVisits_perm h2).symm).map _
  · exact (classRecords_perm lang h1).trans (classRecords_perm lang h2).symm

/-- C17: for every statement sequence and preferred language, the results of
two runs of the extractor that enumerate the maps in any two orders agree up
to order: the two lists of links are permutations of each other, and so are
the two lists of class records once the attribute rows of every record are
taken as a multiset. -/
theorem models_agree_up_to_order (lang : String) (trs : List Triple)
    (e1 e2 : State → Enumeration) (o1 o2 : Out)
    (hv1 : ∀ st, run lang trs = some st → (e1 st).Valid st)
    (hv2 : ∀ st, run lang trs = some st → (e2 st).Valid st)
    (h1 : extract lang trs e1 = some o1) (h2 : extract lang trs e2 = some o2) :
    o1.ont.Links.Perm o2.ont.Links ∧
    (o1.ont.Classes.map normalClass).Perm (o2.ont.Classes.map normalClass) := by
  unfold extract at h1 h2
  cases hrun : run lang trs with
  | none => simp [hrun] at h1
  | some st =>
    simp only [hrun, Option.map_some', Option.some.injEq] at h1 h2
    subst h1 h2
    exact build_agree_up_to_order lang st (e1 st) (e2 st) (hv1 st hrun) (hv2 st hrun)

/-- The insertion order and an order that reverses every map, on `crossTriples`. -/
theorem models_agree_up_to_order_witness :
    (build "no" crossState crossState.insertionOrder).ont.Links.Perm
      (build "no" crossState crossReversed).ont.Links ∧
    ((build "no" crossState crossState.insertionOrder).ont.Classes.map normalClass).Perm
      ((build "no" crossState crossReversed).ont.Classes.map normalClass) :=
  models_agree_up_to_order "no" crossTriples State.insertionOrder (fun _ => crossReversed)
    (build "no" crossState crossState.insertionOrder) (build "no" crossState crossReversed)
    (fun st _ => insertionOrder_valid st)
    (fun st h => by
      have hst : st = crossState := by
        have h0 : run "no" crossTriples = some crossState := by decide
        rw [h0] at h
        exact (Option.some.inj h).symm
      subst hst
      decide)
    (by decide) (by decide)

/-! ## Repeating a statement -/

theorem GoMap.set_of_get? {κ ν : Type} [DecidableEq κ] (m : GoMap κ ν) (k : κ) (v : ν)
    (h : GoMap.get? m k = some v) : GoMap.set m k v = m := by
  induction m with
  | nil => simp [GoMap.get?] at h
  | cons hd tl ih =>
    obtain ⟨k1, v1⟩ := hd
    by_cases hk : k1 = k
    · subst hk
      simp only [GoMap.get?, if_true, Option.some.injEq] at h
      simp [GoMap.set, h]
    · simp only [GoMap.get?, hk, if_false] at h
      simp [GoMap.set, hk, ih h]

theorem addToSet_of_get? (m : GoMap IRI (GoMap IRI Bool)) (k x : IRI) (inner : GoMap IRI Bool)
    (h : m.get? k = some inner) : addToSet m k x = m.set k (inner.set x true) := by
  simp [addToSet, GoMap.contains, h]

theorem addToSet_idem (m : GoMap IRI (GoMap IRI Bool)) (k x : IRI) :
    addToSet (addToSet m k x) k x = addToSet m k x := by
  have hg : (addToSet m k x).get? k = some (((m.get? k).getD []).set x true) := by
    rw [get?_addToSet]; simp
  rw [addToSet_of_get? _ k x _ hg, GoMap.set_set_self]
  exact GoMap.set_of_get? _ _ _ hg

theorem stepClass_cases {st st1 : State} {tr : Triple} (hs : stepClass st tr = some st1) :
    (tr.Obj ≠ .iri rdfsClass ∧ st1 = st) ∨
    (tr.Obj = .iri rdfsClass ∧ ∃ s, tr.Subj = .iri s ∧
      st1 = { st with classes := st.classes.set s [], curSubj := s }) := by
  unfold stepClass at hs
  split at hs
  · rename_i hobj
    have hobj1 : tr.Obj = .iri rdfsClass := by simpa [TermsEqual] using hobj
    cases hsub : tr.Subj with
    | iri s =>
      simp only [hsub, Term.asIRI, Option.some_bind, Option.some.injEq] at hs
      exact Or.inr ⟨hobj1, s, rfl, hs.symm⟩
    | blank b => simp [hsub, Term.asIRI] at hs
    | literal l => simp [hsub, Term.asIRI] at hs
  · rename_i hobj
    have hobj1 : tr.Obj ≠ .iri rdfsClass := by simpa [TermsEqual] using hobj
    simp only [Option.some.injEq] at hs
    exact Or.inl ⟨hobj1, hs.symm⟩

theorem stepProperty_cases {st st1 : State} {tr : Triple}
    (hs : stepProperty st tr = some st1) :
    (tr.Obj ≠ .iri rdfsProperty ∧ st1 = st) ∨
    (tr.Obj = .iri rdfsProperty ∧ ∃ s, tr.Subj = .iri s ∧ st1 = { st with curProp := s }) := by
  unfold stepProperty at hs
  split at hs
  · rename_i hobj
    have hobj1 : tr.Obj = .iri rdfsProperty := by simpa [TermsEqual] using hobj
    cases hsub : tr.Subj with
    | iri s =>
      simp only [hsub, Term.asIRI, Option.some_bind, Option.some.injEq] at hs
      exact Or.inr ⟨hobj1, s, rfl, hs.symm⟩
    | blank b => simp [hsub, Term.asIRI] at hs
    | literal l => simp [hsub, Term.asIRI] at hs
  · rename_i hobj
    have hobj1 : tr.Obj ≠ .iri rdfsProperty := by simpa [TermsEqual] using hobj
    simp only [Option.some.injEq] at hs
    exact Or.inl ⟨hobj1, hs.symm⟩

theorem stepClassLabel_cases {lang : String} {st st1 : State} {tr : Triple}
    (hs : stepClassLabel lang st tr = some st1) :
    (¬ (tr.Subj = .iri st.curSubj ∧ tr.Pred = .iri rdfsLabel) ∧ st1 = st) ∨
    (tr.Subj = .iri st.curSubj ∧ tr.Pred = .iri rdfsLabel ∧ ∃ l, tr.Obj = .literal l ∧
      ((l.lang = lang ∧ st1 = { st with iriLabels := st.iriLabels.set st.curSubj l.str }) ∨
        (l.lang ≠ lang ∧ st1 = st))) := by
  unfold stepClassLabel at hs
  split at hs
  · rename_i hcond
    simp only [TermsEqual, Bool.and_eq_true, decide_eq_true_eq] at hcond
    cases hobj : tr.Obj with
    | literal l =>
      simp only [hobj, Term.asLiteral, Option.some_bind] at hs
      split at hs
      · rename_i hl
        simp only [Option.some.injEq] at hs
        exact Or.inr ⟨hcond.1, hcond.2, l, rfl, Or.inl ⟨hl, hs.symm⟩⟩
      · rename_i hl
        simp only [Option.some.injEq] at hs
        exact Or.inr ⟨hcond.1, hcond.2, l, rfl, Or.inr ⟨hl, hs.symm⟩⟩
    | iri i => simp [hobj, Term.asLiteral] at hs
    | blank b => simp [hobj, Term.asLiteral] at hs
  · rename_i hcond
    simp only [TermsEqual, Bool.and_eq_true, decide_eq_true_eq] at hcond
    simp only [Option.some.injEq] at hs
    exact Or.inl ⟨hcond, hs.symm⟩

theorem stepPropertyLabel_cases {lang : String} {st st1 : State} {tr : Triple}
    (hs : stepPropertyLabel lang st tr = some st1) :
    (¬ (tr.Subj = .iri st.curProp ∧ tr.Pred = .iri rdfsLabel) ∧ st1 = st) ∨
    (tr.Subj = .iri st.curProp ∧ tr.Pred = .iri rdfsLabel ∧ ∃ l, tr.Obj = .literal l ∧
      ((l.lang = lang ∧ st1 = { st with iriLabels := st.iriLabels.set st.curProp l.str }) ∨
        (l.lang ≠ lang ∧ st1 = st))) := by
  unfold stepPropertyLabel at hs
  split at hs
  · rename_i hcond
    simp only [TermsEqual, Bool.and_eq_true, decide_eq_true_eq] at hcond
    cases hobj : tr.Obj with
    | literal l =>
      simp only [hobj, Term.asLiteral, Option.some_bind] at hs
      split at hs
      · rename_i hl
        simp only [Option.some.injEq] at hs
        exact Or.inr ⟨hcond.1, hcond.2, l, rfl, Or.inl ⟨hl, hs.symm⟩⟩
      · rename_i hl
        simp only [Option.some.injEq] at hs
        exact Or.inr ⟨hcond.1, hcond.2, l, rfl, Or.inr ⟨hl, hs.symm⟩⟩
    | iri i => simp [hobj, Term.asLiteral] at hs
    | blank b => simp [hobj, Term.asLiteral] at hs
  · rename_i hcond
    simp only [TermsEqual, Bool.and_eq_true, decide_eq_true_eq] at hcond
    simp only [Option.some.injEq] at hs
    exact Or.inl ⟨hcond, hs.symm⟩

theorem stepDomain_cases {st st1 : State} {tr : Triple} (hs : stepDomain st tr = some st1) :
    (tr.Pred ≠ .iri rdfsDomain ∧ st1 = st) ∨
    (tr.Pred = .iri rdfsDomain ∧ ∃ o s, tr.Obj = .iri o ∧ tr.Subj = .iri s ∧
      st1 = { st with classes := addToSet st.classes o s }) := by
  unfold stepDomain at hs
  split at hs
  · rename_i hpred
    have hpred1 : tr.Pred = .iri rdfsDomain := by simpa [TermsEqual] using hpred
    cases hobj : tr.Obj with
    | iri o =>
      cases hsub : tr.Subj with
      | iri s =>
        simp only [hobj, hsub, Term.asIRI, Option.some_bind, Option.some.injEq] at hs
        exact Or.inr ⟨hpred1, o, s, rfl, rfl, hs.symm⟩
      | blank b => simp [hobj, hsub, Term.asIRI] at hs
      | literal l => simp [hobj, hsub, Term.asIRI] at hs
    | blank b => simp [hobj, Term.asIRI] at hs
    | literal l => simp [hobj, Term.asIRI] at hs
  · rename_i hpred
    have hpred1 : tr.Pred ≠ .iri rdfsDomain := by simpa [TermsEqual] using hpred
    simp only [Option.some.injEq] at hs
    exact Or.inl ⟨hpred1, hs.symm⟩

theorem stepRange_cases {st st1 : State} {tr : Triple} (hs : stepRange st tr = some st1) :
    (tr.Pred ≠ .iri rdfsRange ∧ st1 = st) ∨
    (tr.Pred = .iri rdfsRange ∧ ∃ obj, tr.Obj = .iri obj ∧
      ((st.classes.contains obj = true ∧
          st1 = { st with relations := addToSet st.relations st.curProp obj }) ∨
        (st.classes.contains obj = false ∧ st1 = st))) := by
  unfold stepRange at hs
  split at hs
  · rename_i hpred
    have hpred1 : tr.Pred = .iri rdfsRange := by simpa [TermsEqual] using hpred
    cases hobj : tr.Obj with
    | iri o =>
      simp only [hobj, Term.asIRI, Option.some_bind] at hs
      split at hs
      · rename_i hk
        simp only [Option.some.injEq] at hs
        exact Or.inr ⟨hpred1, o, rfl, Or.inl ⟨hk, hs.symm⟩⟩
      · rename_i hk
        simp only [Option.some.injEq] at hs
        exact Or.inr ⟨hpred1, o, rfl, Or.inr ⟨by simpa using hk, hs.symm⟩⟩
    | blank b => simp [hobj, Term.asIRI] at hs
    | literal l => simp [hobj, Term.asIRI] at hs
  · rename_i hpred
    have hpred1 : tr.Pred ≠ .iri rdfsRange := by simpa [TermsEqual] using hpred
    simp only [Option.some.injEq] at hs
    exact Or.inl ⟨hpred1, hs.symm⟩

theorem stepRange_of_ne {st : State} {tr : Triple} (h : tr.Pred ≠ .iri rdfsRange) :
    stepRange st tr = some st := by
  simp [stepRange, TermsEqual, h]

theorem stepProperty_of_ne {st : State} {tr : Triple} (h : tr.Obj ≠ .iri rdfsProperty) :
    stepProperty st tr = some st := by
  simp [stepProperty, TermsEqual, h]

theorem stepRange_fix {st st1 : State} {tr : Triple} (hs : stepRange st tr = some st1) :
    stepRange st1 tr = some st1 := by
  rcases stepRange_cases hs with ⟨-, rfl⟩ | ⟨hp, obj, ho, ⟨hk, rfl⟩ | ⟨-, rfl⟩⟩
  · exact hs
  · simp [stepRange, TermsEqual, hp, ho, Term.asIRI, hk, addToSet_idem]
  · exact hs

theorem stepDomain_fix {st st1 : State} {tr : Triple} (hs : stepDomain st tr = some st1) :
    stepDomain st1 tr = some st1 := by
  rcases stepDomain_cases hs with ⟨-, rfl⟩ | ⟨hp, o, s, ho, hsub, rfl⟩
  · exact hs
  · simp [stepDomain, TermsEqual, hp, ho, hsub, Term.asIRI, addToSet_idem]

theorem state_eq_of (st : State) {c : GoMap IRI (GoMap IRI Bool)} {l : GoMap IRI String}
    {r : GoMap IRI (GoMap IRI Bool)} {cs cp : IRI} (h1 : c = st.classes)
    (h2 : l = st.iriLabels) (h3 : r = st.relations) (h4 : cs = st.curSubj)
    (h5 : cp = st.curProp) : (⟨c, l, r, cs, cp⟩ : State) = st := by
  cases st; simp_all

theorem update_curProp_eq (st : State) (s : IRI) (h : st.curProp = s) :
    ({ st with curProp := s } : State) = st := by
  cases st; simp_all

theorem update_labels_eq (st : State) (m : GoMap IRI String) (h : m = st.iriLabels) :
    ({ st with iriLabels := m } : State) = st := by
  cases st; simp_all

theorem update_class_eq (st : State) (m : GoMap IRI (GoMap IRI Bool)) (s : IRI)
    (h : m = st.classes) (hs : st.curSubj = s) :
    ({ st with classes := m, curSubj := s } : State) = st := by
  cases st; simp_all

/-- After a successful step the property part finds the property cursor
already on the subject. -/
theorem stepProperty_fix {lang : String} {st st1 : State} {tr : Triple}
    (hs : step lang st tr = some st1) : stepProperty st1 tr = some st1 := by
  obtain ⟨s1, s2, s3, s4, s5, h1, h2, h3, h4, h5, h6⟩ := step_parts hs
  have hcur : st1.curProp = s3.curProp := by
    rw [(stepRange_maps h6).2.2.2, (stepDomain_labels h5).2.2.2,
      (stepPropertyLabel_maps h4).2.2.2]
  rcases stepProperty_cases h3 with ⟨hne, -⟩ | ⟨ho, s, hsub, rfl⟩
  · exact stepProperty_of_ne hne
  · simp only [stepProperty, TermsEqual, ho, hsub, decide_True, if_true, Term.asIRI,
      Option.some_bind, Option.some.injEq]
    exact update_curProp_eq st1 s hcur

/-- After a successful step the domain part finds the subject attached. -/
theorem stepDomain_fix_step {lang : String} {st st1 : State} {tr : Triple}
    (hs : step lang st tr = some st1) : stepDomain st1 tr = some st1 := by
  obtain ⟨s1, s2, s3, s4, s5, h1, h2, h3, h4, h5, h6⟩ := step_parts hs
  by_cases hp : tr.Pred = .iri rdfsDomain
  · have hr : tr.Pred ≠ .iri rdfsRange := by
      rw [hp]; decide
    rw [stepRange_of_ne hr] at h6
    simp only [Option.some.injEq] at h6
    subst h6
    exact stepDomain_fix h5
  · exact stepDomain_of_ne hp

/-- After a successful step the property label part finds the label written. -/
theorem stepPropertyLabel_fix {lang : String} {st st1 : State} {tr : Triple}
    (hs : step lang st tr = some st1) : stepPropertyLabel lang st1 tr = some st1 := by
  obtain ⟨s1, s2, s3, s4, s5, h1, h2, h3, h4, h5, h6⟩ := step_parts hs
  have hcur : st1.curProp = s4.curProp := by
    rw [(stepRange_maps h6).2.2.2, (stepDomain_labels h5).2.2.2]
  have hlab : st1.iriLabels = s4.iriLabels := by
    rw [(stepRange_maps h6).2.1, (stepDomain_labels h5).1]
  rcases stepPropertyLabel_cases h4 with ⟨hn, rfl⟩ | ⟨hsub, hpred, l, hobj, ⟨hl, rfl⟩ | ⟨hl, rfl⟩⟩
  · simp only [stepPropertyLabel, TermsEqual, Bool.and_eq_true, decide_eq_true_eq, hcur]
    rw [if_neg hn]
  · simp only at hcur hlab
    simp only [stepPropertyLabel, TermsEqual, hcur, hsub, hpred, decide_True, Bool.and_self,
      if_true, hobj, Term.asLiteral, Option.some_bind, hl, Option.some.injEq]
    exact state_eq_of st1 rfl (by rw [hlab, GoMap.set_set_self]) rfl rfl hcur.symm
  · simp only [stepPropertyLabel, TermsEqual, hcur, hsub, hpred, decide_True, Bool.and_self,
      if_true, hobj, Term.asLiteral, Option.some_bind, hl, if_false]

/-- After a successful step the class label part finds the label written. -/
theorem stepClassLabel_fix {lang : String} {st st1 : State} {tr : Triple}
    (hs : step lang st tr = some st1) : stepClassLabel lang st1 tr = some st1 := by
  obtain ⟨s1, s2, s3, s4, s5, h1, h2, h3, h4, h5, h6⟩ := step_parts hs
  have hcur : st1.curSubj = s2.curSubj := by
    rw [(stepRange_maps h6).2.2.1, (stepDomain_labels h5).2.2.1,
      (stepPropertyLabel_maps h4).2.2.1, (stepProperty_maps h3).2.2.2]
  have hlab : st1.iriLabels = s4.iriLabels := by
    rw [(stepRange_maps h6).2.1, (stepDomain_labels h5).1]
  have hlab3 : s3.iriLabels = s2.iriLabels := (stepProperty_maps h3).2.2.1
  rcases stepClassLabel_cases h2 with ⟨hn, rfl⟩ | ⟨hsub, hpred, l, hobj, ⟨hl, rfl⟩ | ⟨hl, rfl⟩⟩
  · simp only [stepClassLabel, TermsEqual, Bool.and_eq_true, decide_eq_true_eq, hcur]
    rw [if_neg hn]
  · simp only at hcur hlab3
    have hfix : st1.iriLabels.set s1.curSubj l.str = st1.iriLabels := by
      rw [hlab]
      rcases stepPropertyLabel_cases h4 with
        ⟨-, rfl⟩ | ⟨hsub4, -, l4, hobj4, ⟨-, rfl⟩ | ⟨-, rfl⟩⟩
      · rw [hlab3, GoMap.set_set_self]
      · have hl4 : l4 = l := by
          rw [hobj] at hobj4
          exact (Term.literal.inj hobj4).symm
        have hc4 : s3.curProp = s1.curSubj := by
          rw [hsub] at hsub4
          exact (Term.iri.inj hsub4).symm
        simp only [hl4, hc4, hlab3, GoMap.set_set_self]
      · rw [hlab3, GoMap.set_set_self]
    simp only [stepClassLabel, TermsEqual, hcur, hsub, hpred, decide_True, Bool.and_self,
      if_true, hobj, Term.asLiteral, Option.some_bind, hl, Option.some.injEq]
    exact state_eq_of st1 rfl hfix rfl hcur.symm rfl
  · simp only [stepClassLabel, TermsEqual, hcur, hsub, hpred, decide_True, Bool.and_self,
      if_true, hobj, Term.asLiteral, Option.some_bind, hl, if_false]

/-- After a successful step the class part finds the subject registered with
an empty property set, unless the statement is "`rdfs:Class` domain
`rdfs:Class`". -/
theorem stepClass_fix {lang : String} {st st1 : State} {tr : Triple}
    (hs : step lang st tr = some st1)
    (hne : ¬ (tr.Subj = .iri rdfsClass ∧ tr.Pred = .iri rdfsDomain)) :
    stepClass st1 tr = some st1 := by
  obtain ⟨s1, s2, s3, s4, s5, h1, h2, h3, h4, h5, h6⟩ := step_parts hs
  have hcur : st1.curSubj = s1.curSubj := by
    rw [(stepRange_maps h6).2.2.1, (stepDomain_labels h5).2.2.1,
      (stepPropertyLabel_maps h4).2.2.1, (stepProperty_maps h3).2.2.2,
      (stepClassLabel_maps h2).2.2.1]
  have hcl4 : s4.classes = s1.classes := by
    rw [(stepPropertyLabel_maps h4).1, (stepProperty_maps h3).1, (stepClassLabel_maps h2).1]
  have hcl : st1.classes = s5.classes := (stepRange_maps h6).1
  rcases stepClass_cases h1 with ⟨hobj, -⟩ | ⟨hobj, s, hsub, rfl⟩
  · exact stepClass_of_ne hobj
  · simp only at hcur hcl4
    have hfix : st1.classes.set s [] = st1.classes := by
      rw [hcl]
      rcases stepDomain_cases h5 with ⟨-, rfl⟩ | ⟨hpred, o, s0, hobj5, hsub5, rfl⟩
      · rw [hcl4, GoMap.set_set_self]
      · have ho : o = rdfsClass := by
          rw [hobj] at hobj5
          exact (Term.iri.inj hobj5).symm
        have hs0 : s0 = s := by
          rw [hsub] at hsub5
          exact (Term.iri.inj hsub5).symm
        have hsne : rdfsClass ≠ s := by
          intro h
          exact hne ⟨by rw [hsub, h], hpred⟩
        apply GoMap.set_of_get?
        simp only [ho, hs0, get?_addToSet, hsne, if_false, hcl4, GoMap.get?_set_self]
    simp only [stepClass, TermsEqual, hobj, hsub, decide_True, if_true, Term.asIRI,
      Option.some_bind, Option.some.injEq]
    exact state_eq_of st1 hfix rfl rfl hcur.symm rfl

theorem addToSet_set_nil (m : GoMap IRI (GoMap IRI Bool)) (k x : IRI) :
    addToSet (m.set k []) k x = m.set k [(x, true)] := by
  rw [addToSet_of_get? _ k x [] (GoMap.get?_set_self m k []), GoMap.set_set_self]
  rfl

/-- The statement "`rdfs:Class` domain `rdfs:Class`" processed twice. -/
theorem step_classDomain_twice (lang : String) (st st1 : State)
    (hs : step lang st (stmtDomain rdfsClass rdfsClass) = some st1) :
    step lang st1 (stmtDomain rdfsClass rdfsClass) = some st1 := by
  have hcp : ¬ rdfsClass = rdfsProperty := by decide
  rw [step_domain_gen] at hs ⊢
  simp only [if_true, hcp, if_false, Option.some.injEq, addToSet_set_nil] at hs ⊢
  subst hs
  simp only [GoMap.set_set_self]

theorem step_twice {lang : String} {st st1 : State} {tr : Triple}
    (hs : step lang st tr = some st1) : step lang st1 tr = some st1 := by
  by_cases hcorner : tr.Subj = .iri rdfsClass ∧ tr.Pred = .iri rdfsDomain ∧
      tr.Obj = .iri rdfsClass
  · have htr : tr = stmtDomain rdfsClass rdfsClass := by
      obtain ⟨a, b, c⟩ := hcorner
      cases tr; simp_all [stmtDomain]
    rw [htr] at hs ⊢
    exact step_classDomain_twice lang st st1 hs
  · have h1 : stepClass st1 tr = some st1 := by
      by_cases hobj : tr.Obj = .iri rdfsClass
      · exact stepClass_fix hs (fun h => hcorner ⟨h.1, h.2, hobj⟩)
      · exact stepClass_of_ne hobj
    simp only [step, h1, stepClassLabel_fix hs, stepProperty_fix hs, stepPropertyLabel_fix hs,
      stepDomain_fix_step hs, Option.some_bind]
    obtain ⟨s1, s2, s3, s4, s5, -, -, -, -, -, h6⟩ := step_parts hs
    exact stepRange_fix h6

theorem runFrom_append (lang : String) (a b : List Triple) (st : State) :
    runFrom lang st (a ++ b) = (runFrom lang st a).bind fun s => runFrom lang s b := by
  induction a generalizing st with
  | nil => simp [runFrom]
  | cons tr a ih =>
    simp only [List.cons_append, runFrom]
    cases step lang st tr with
    | none => rfl
    | some s1 => simp [ih]

theorem runFrom_repeat (lang : String) (tr : Triple) (post : List Triple) (st : State) :
    runFrom lang st (tr :: tr :: post) = runFrom lang st (tr :: post) := by
  simp only [runFrom]
  cases hs : step lang st tr with
  | none => rfl
  | some s1 => simp [step_twice hs]

/-- C18: the step is idempotent.  For every state, preferred language and
statement on which the step does not fail, processing the statement a second
time right after the first succeeds and leaves the state reached by the first;
hence a statement sequence with a statement repeated immediately after itself
gives the same result of the extractor, under every enumeration, as the
sequence without the repetition. -/
theorem repeated_statement (lang : String) :
    (∀ (st st1 : State) (tr : Triple), step lang st tr = some st1 →
      step lang st1 tr = some st1) ∧
    (∀ (front : List Triple) (tr : Triple) (post : List Triple) (e : State → Enumeration),
      extract lang (front ++ tr :: tr :: post) e = extract lang (front ++ tr :: post) e) := by
  refine ⟨fun st st1 tr hs => step_twice hs, ?_⟩
  intro front tr post e
  simp only [extract, run, runFrom_append, runFrom_repeat]

/-- A domain statement repeated in the state of `crossTriples`. -/
theorem repeated_statement_witness :
    step "no" crossState (stmtDomain ⟨"urn:P"⟩ ⟨"urn:B"⟩) = some crossState ∧
    extract "no" (crossTriples.take 8 ++ stmtDomain ⟨"urn:P"⟩ ⟨"urn:A"⟩
        :: stmtDomain ⟨"urn:P"⟩ ⟨"urn:A"⟩ :: crossTriples.drop 9) State.insertionOrder
      = extract "no" (crossTriples.take 8 ++ stmtDomain ⟨"urn:P"⟩ ⟨"urn:A"⟩
        :: crossTriples.drop 9) State.insertionOrder :=
  ⟨(repeated_statement "no").1 crossState crossState (stmtDomain ⟨"urn:P"⟩ ⟨"urn:B"⟩)
      (by decide),
    (repeated_statement "no").2 (crossTriples.take 8) (stmtDomain ⟨"urn:P"⟩ ⟨"urn:A"⟩)
      (crossTriples.drop 9) State.insertionOrder⟩

/-! ## Type assertions -/

theorem stepClass_ok (st : State) {tr : Triple} (h : tr.Subj.asIRI.isSome = true) :
    ∃ s1, stepClass st tr = some s1 := by
  obtain ⟨s, hs⟩ := Option.isSome_iff_exists.mp h
  unfold stepClass
  split
  · exact ⟨_, by rw [hs]; rfl⟩
  · exact ⟨st, rfl⟩

theorem stepProperty_ok (st : State) {tr : Triple} (h : tr.Subj.asIRI.isSome = true) :
    ∃ s1, stepProperty st tr = some s1 := by
  obtain ⟨s, hs⟩ := Option.isSome_iff_exists.mp h
  unfold stepProperty
  split
  · exact ⟨_, by rw [hs]; rfl⟩
  · exact ⟨st, rfl⟩

theorem stepClassLabel_ok (lang : String) (st : State) {tr : Triple}
    (h : tr.Pred = .iri rdfsLabel → tr.Obj.asLiteral.isSome = true) :
    ∃ s1, stepClassLabel lang st tr = some s1 := by
  unfold stepClassLabel
  split
  · rename_i hcond
    simp only [TermsEqual, Bool.and_eq_true, decide_eq_true_eq] at hcond
    obtain ⟨l, hl⟩ := Option.isSome_iff_exists.mp (h hcond.2)
    rw [hl]
    simp only [Option.some_bind]
    split
    · exact ⟨_, rfl⟩
    · exact ⟨st, rfl⟩
  · exact ⟨st, rfl⟩

theorem stepPropertyLabel_ok (lang : String) (st : State) {tr : Triple}
    (h : tr.Pred = .iri rdfsLabel → tr.Obj.asLiteral.isSome = true) :
    ∃ s1, stepPropertyLabel lang st tr = some s1 := by
  unfold stepPropertyLabel
  split
  · rename_i hcond
    simp only [TermsEqual, Bool.and_eq_true, decide_eq_true_eq] at hcond
    obtain ⟨l, hl⟩ := Option.isSome_iff_exists.mp (h hcond.2)
    rw [hl]
    simp only [Option.some_bind]
    split
    · exact ⟨_, rfl⟩
    · exact ⟨st, rfl⟩
  · exact ⟨st, rfl⟩

theorem stepDomain_ok (st : State) {tr : Triple} (hs : tr.Subj.asIRI.isSome = true)
    (h : tr.Pred = .iri rdfsDomain → tr.Obj.asIRI.isSome = true) :
    ∃ s1, stepDomain st tr = some s1 := by
  obtain ⟨s, hsub⟩ := Option.isSome_iff_exists.mp hs
  unfold stepDomain
  split
  · rename_i hcond
    simp only [TermsEqual, decide_eq_true_eq] at hcond
    obtain ⟨o, ho⟩ := Option.isSome_iff_exists.mp (h hcond)
    exact ⟨_, by rw [ho, hsub]; rfl⟩
  · exact ⟨st, rfl⟩

theorem stepRange_ok (st : State) {tr : Triple}
    (h : tr.Pred = .iri rdfsRange → tr.Obj.asIRI.isSome = true) :
    ∃ s1, stepRange st tr = some s1 := by
  unfold stepRange
  split
  · rename_i hcond
    simp only [TermsEqual, decide_eq_true_eq] at hcond
    obtain ⟨o, ho⟩ := Option.isSome_iff_exists.mp (h hcond)
    rw [ho]
    simp only [Option.some_bind]
    split
    · exact ⟨_, rfl⟩
    · exact ⟨st, rfl⟩
  · exact ⟨st, rfl⟩

theorem step_ok (lang : String) (st : State) {tr : Triple} (h : wellTyped tr = true) :
    ∃ st1, step lang st tr = some st1 := by
  simp only [wellTyped, Bool.and_eq_true, Bool.or_eq_true, Bool.not_eq_true',
    decide_eq_false_iff_not, decide_eq_true_eq] at h
  obtain ⟨⟨hsub, hlab⟩, hdr⟩ := h
  have hlab1 : tr.Pred = .iri rdfsLabel → tr.Obj.asLiteral.isSome = true := by
    intro hp
    rcases hlab with h | h
    · exact absurd hp h
    · exact h
  have hdom : tr.Pred = .iri rdfsDomain → tr.Obj.asIRI.isSome = true := by
    intro hp
    rcases hdr with h | h
    · simp [hp] at h
    · exact h
  have hran : tr.Pred = .iri rdfsRange → tr.Obj.asIRI.isSome = true := by
    intro hp
    rcases hdr with h | h
    · simp [hp] at h
    · exact h
  obtain ⟨s1, h1⟩ := stepClass_ok st hsub
  obtain ⟨s2, h2⟩ := stepClassLabel_ok lang s1 hlab1
  obtain ⟨s3, h3⟩ := stepProperty_ok s2 hsub
  obtain ⟨s4, h4⟩ := stepPropertyLabel_ok lang s3 hlab1
  obtain ⟨s5, h5⟩ := stepDomain_ok s4 hsub hdom
  obtain ⟨s6, h6⟩ := stepRange_ok s5 hran
  exact ⟨s6, by simp only [step, h1, h2, h3, h4, h5, h6, Option.some_bind]⟩

theorem runFrom_ok (lang : String) (trs : List Triple) (st : State)
    (h : trs.all wellTyped = true) : ∃ st1, runFrom lang st trs = some st1 := by
  induction trs generalizing st with
  | nil => exact ⟨st, rfl⟩
  | cons tr trs ih =>
    simp only [List.all_cons, Bool.and_eq_true] at h
    obtain ⟨s1, h1⟩ := step_ok lang st h.1
    obtain ⟨s2, h2⟩ := ih s1 h.2
    exact ⟨s2, by simp only [runFrom, h1, Option.some_bind, h2]⟩

/-- A label statement whose object is neither `rdfs:Class` nor
`rdfs:Property` and whose subject is on neither cursor changes nothing and
asserts nothing. -/
theorem step_guarded_label (lang : String) (st : State) (tr : Triple)
    (hp : tr.Pred = .iri rdfsLabel) (hs : tr.Subj ≠ .iri st.curSubj)
    (hq : tr.Subj ≠ .iri st.curProp) (hc : tr.Obj ≠ .iri rdfsClass)
    (hr : tr.Obj ≠ .iri rdfsProperty) : step lang st tr = some st := by
  have h3 : ¬ rdfsLabel = rdfsDomain := by decide
  have h4 : ¬ rdfsLabel = rdfsRange := by decide
  simp [step, stepClass, stepClassLabel, stepProperty, stepPropertyLabel, stepDomain,
    stepRange, TermsEqual, hp, hs, hq, hc, hr, h3, h4]

/-- C19 (as stated, refuted): in the initial state the subject of
"`urn:X` label `rdfs:Class`" is on neither cursor and the object is not a
literal, yet the step fails: the class part moves the class cursor to the
subject first, and the class label part then asserts a literal. -/
theorem guarded_assertion_counterexample :
    (Term.iri ⟨"urn:X"⟩ ≠ .iri State.init.curSubj ∧
      Term.iri ⟨"urn:X"⟩ ≠ .iri State.init.curProp ∧
      (Term.iri rdfsClass).asLiteral = none) ∧
    stepClass State.init ⟨.iri ⟨"urn:X"⟩, .iri rdfsLabel, .iri rdfsClass⟩
      = some ⟨[(⟨"urn:X"⟩, [])], [], [], ⟨"urn:X"⟩, ⟨""⟩⟩ ∧
    stepClassLabel "no" ⟨[(⟨"urn:X"⟩, [])], [], [], ⟨"urn:X"⟩, ⟨""⟩⟩
      ⟨.iri ⟨"urn:X"⟩, .iri rdfsLabel, .iri rdfsClass⟩ = none ∧
    step "no" State.init ⟨.iri ⟨"urn:X"⟩, .iri rdfsLabel, .iri rdfsClass⟩ = none := by
  decide

/-- C19 (amended): when every statement has an IRI subject, every label
statement a literal object and every domain or range statement an IRI object,
the pass fails on no type assertion and the extractor returns a model under
every enumeration; moreover a label statement whose subject is on neither
cursor and whose object is neither `rdfs:Class` nor `rdfs:Property` is
processed without failure, and without any change, whatever kind of term its
object is. -/
theorem no_failed_assertion (lang : String) :
    (∀ trs : List Triple, trs.all wellTyped = true →
      ∃ st, run lang trs = some st ∧
        ∀ e : State → Enumeration, extract lang trs e = some (build lang st (e st))) ∧
    (∀ (st : State) (tr : Triple), tr.Pred = .iri rdfsLabel →
      tr.Subj ≠ .iri st.curSubj → tr.Subj ≠ .iri st.curProp →
      tr.Obj ≠ .iri rdfsClass → tr.Obj ≠ .iri rdfsProperty →
      step lang st tr = some st) := by
  refine ⟨?_, fun st tr hp hs hq hc hr => step_guarded_label lang st tr hp hs hq hc hr⟩
  intro trs h
  obtain ⟨st, hst⟩ := runFrom_ok lang trs State.init h
  exact ⟨st, hst, fun e => by simp [extract, run, hst]⟩

/-- A well-typed sequence, and a label statement with a blank-node object. -/
theorem no_failed_assertion_witness :
    (∃ st, run "no" crossTriples = some st ∧
        ∀ e : State → Enumeration,
          extract "no" crossTriples e = some (build "no" st (e st))) ∧
    step "no" crossState ⟨.iri ⟨"urn:Z"⟩, .iri rdfsLabel, .blank "b0"⟩ = some crossState :=
  ⟨(no_failed_assertion "no").1 crossTriples (by decide),
    (no_failed_assertion "no").2 crossState ⟨.iri ⟨"urn:Z"⟩, .iri rdfsLabel, .blank "b0"⟩
      (by decide) (by decide) (by decide) (by decide) (by decide)⟩

/-! ## Two runs of the extractor -/

theorem build_log_perm (lang : String) {st : State} {e1 e2 : Enumeration}
    (h1 : e1.Valid st) (h2 : e2.Valid st) :
    (build lang st e1).log.Perm (build lang st e2).log := by
  rw [build_log, build_log]
  exact ((logVisits_perm h1).trans (logVisits_perm h2).symm).map _

/-- C9 (amended): determinism up to the enumeration order of the maps.  For
every statement sequence and preferred language, two runs of the extractor
that enumerate the maps in any two orders either both fail or both return a
result, and the two results are identical up to order: the links are
permutations of each other, the class records are permutations of each other
once the attribute rows of every record are taken as a multiset, and the
diagnostics are permutations of each other.  When the two runs enumerate the
class map, every property set and every range set in the same orders, the two
results are identical, order included. -/
theorem runs_identical_up_to_order (lang : String) (trs : List Triple)
    (e1 e2 : State → Enumeration)
    (hv1 : ∀ st, run lang trs = some st → (e1 st).Valid st)
    (hv2 : ∀ st, run lang trs = some st → (e2 st).Valid st) :
    (extract lang trs e1 = none ↔ extract lang trs e2 = none) ∧
    ∀ o1 o2 : Out, extract lang trs e1 = some o1 → extract lang trs e2 = some o2 →
      o1.ont.Links.Perm o2.ont.Links ∧
      (o1.ont.Classes.map normalClass).Perm (o2.ont.Classes.map normalClass) ∧
      o1.log.Perm o2.log ∧
      ((∀ st, run lang trs = some st →
          (e1 st).classOrder = (e2 st).classOrder ∧
          (∀ c ∈ st.classes.keys, (e1 st).propOrder c = (e2 st).propOrder c) ∧
          ∀ c ∈ st.classes.keys, ∀ lit ∈ (st.props c).keys,
            (e1 st).rangeOrder c lit = (e2 st).rangeOrder c lit) →
        o1 = o2) := by
  unfold extract
  cases hrun : run lang trs with
  | none => simp
  | some st =>
    refine ⟨by simp, ?_⟩
    intro o1 o2 h1 h2
    simp only [Option.map_some', Option.some.injEq] at h1 h2
    subst h1 h2
    have hp := build_agree_up_to_order lang st (e1 st) (e2 st) (hv1 st hrun) (hv2 st hrun)
    refine ⟨hp.1, hp.2, build_log_perm lang (hv1 st hrun) (hv2 st hrun), ?_⟩
    intro hsame
    obtain ⟨hc, hpo, hr⟩ := hsame st rfl
    exact build_congr lang (hv1 st hrun) hc hpo hr

/-- Two runs on `crossTriples`, one in insertion order and one that reverses
every map. -/
theorem runs_identical_up_to_order_witness :
    (extract "no" crossTriples State.insertionOrder = none ↔
      extract "no" crossTriples (fun _ => crossReversed) = none) ∧
    ∀ o1 o2 : Out, extract "no" crossTriples State.insertionOrder = some o1 →
      extract "no" crossTriples (fun _ => crossReversed) = some o2 →
      o1.ont.Links.Perm o2.ont.Links ∧
      (o1.ont.Classes.map normalClass).Perm (o2.ont.Classes.map normalClass) ∧
      o1.log.Perm o2.log ∧
      ((∀ st, run "no" crossTriples = some st →
          st.insertionOrder.classOrder = crossReversed.classOrder ∧
          (∀ c ∈ st.classes.keys, st.insertionOrder.propOrder c = crossReversed.propOrder c) ∧
          ∀ c ∈ st.classes.keys, ∀ lit ∈ (st.props c).keys,
            st.insertionOrder.rangeOrder c lit = crossReversed.rangeOrder c lit) →
        o1 = o2) :=
  runs_identical_up_to_order "no" crossTriples State.insertionOrder (fun _ => crossReversed)
    (fun st _ => insertionOrder_valid st)
    (fun st h => by
      have hst : st = crossState := by
        have h0 : run "no" crossTriples = some crossState := by decide
        rw [h0] at h
        exact (Option.some.inj h).symm
      subst hst
      decide)

end Onto2dot
